import Mathlib

/-!
# Verification of the XG-SAFL cryptographic core

Shallow embedding of `src/crypto/utils.py`, `src/crypto/iss.py`,
`src/crypto/encoding.py` and `src/crypto/tjl.py`, together with proofs of the
specified properties.

Conventions used throughout the embedding:

* Python integers are `ℤ`; counts, bit-widths and list indices, which are
  nonnegative at every reachable call site, are `ℕ`.
* Python floor division `//` is `Int.fdiv` and Python `%` is `Int.fmod`
  (Python's remainder has the sign of the divisor, which is floor-mod
  semantics; for a positive divisor this agrees with `Int.emod`).
* Python `pow(b, e, m)` with `m > 0` and `e ≥ 0` is `(b ^ e).fmod m`.
* Python `round` (banker's rounding, half to even) is `pyRound` on `ℚ`;
  Python floats are modelled as exact rationals.
* `raise ValueError(msg)` is `Except.error msg`; the f-string details of
  messages are dropped, the distinguishing message text is kept.
-/

/-! ## utils.py -/

/-- Embeds `_extended_gcd` from `src/crypto/utils.py`.  The only caller,
`mod_inv`, invokes it with `0 ≤ a < mod` and `mod ≥ 2`, and every recursive
call keeps both arguments nonnegative, so the embedding uses `ℕ` arguments.
Returns `(gcd, x, y)` with `a*x + b*y = gcd`. -/
def _extended_gcd : ℕ → ℕ → ℤ × ℤ × ℤ
  | 0, b => ((b : ℤ), 0, 1)
  | a + 1, b =>
    let r := _extended_gcd (b % (a + 1)) (a + 1)
    (r.1, r.2.2 - ((b / (a + 1) : ℕ) : ℤ) * r.2.1, r.2.1)
termination_by a _ => a
decreasing_by exact Nat.mod_lt _ (Nat.succ_pos a)

/-- Embeds `mod_inv` from `src/crypto/utils.py`: extended-Euclid modular
inverse.  After the `mod ≥ 2` guard, `a % mod` is nonnegative, so passing
`(a.fmod mod).toNat` to the `ℕ`-valued `_extended_gcd` is faithful. -/
def mod_inv (a mod : ℤ) : Except String ℤ :=
  if mod < 2 then Except.error "mod must be >= 2"
  else
    let a2 := a.fmod mod
    let r := _extended_gcd a2.toNat mod.toNat
    if r.1 ≠ 1 then Except.error "no inverse"
    else Except.ok (r.2.1.fmod mod)

/-- Embeds `mod_pow` from `src/crypto/utils.py`.  A negative exponent is
handled by inverting the base; `pow(base, exp, mod)` with the guard
`mod > 0` and a nonnegative exponent is `(base ^ exp).fmod mod`. -/
def mod_pow (base exp mod : ℤ) : Except String ℤ :=
  if mod ≤ 0 then Except.error "mod must be positive"
  else if exp < 0 then
    match mod_inv base mod with
    | Except.error e => Except.error e
    | Except.ok b => Except.ok ((b ^ (-exp).toNat).fmod mod)
  else Except.ok ((base ^ exp.toNat).fmod mod)

/-- One linear scan of `discrete_log_brute` from `src/crypto/utils.py`:
starting from accumulator `acc` at index `start`, test `count` successive
indices, multiplying the accumulator by `base` modulo `modulus` after each
miss, and return the first index whose accumulator equals `target`. -/
def dlogScan (target base modulus acc : ℤ) (start count : ℕ) : Option ℕ :=
  match count with
  | 0 => none
  | c + 1 =>
    if acc = target then some start
    else dlogScan target base modulus ((acc * base).fmod modulus) (start + 1) c

/-- Embeds `discrete_log_brute` from `src/crypto/utils.py`: search
`x ∈ [0, max_val]` with `base ^ x ≡ target`, then `x ∈ [-max_val, -1]`
using the modular inverse of `base`.  The Python default `max_val = 10000`
is passed explicitly by callers of this embedding. -/
def discrete_log_brute (target base modulus : ℤ) (max_val : ℕ) : Except String ℤ :=
  let t := target.fmod modulus
  match dlogScan t base modulus 1 0 (max_val + 1) with
  | some x => Except.ok (x : ℤ)
  | none =>
    match mod_inv base modulus with
    | Except.error e => Except.error e
    | Except.ok inv_base =>
      match dlogScan t inv_base modulus inv_base 1 max_val with
      | some x => Except.ok (-(x : ℤ))
      | none => Except.error "Discrete log not found in range"

/-- The accumulator value of `dlogScan` after `j` multiply-and-reduce steps
(used only in proofs about the scans). -/
def accSeq (b m a : ℤ) : ℕ → ℤ
  | 0 => a
  | j + 1 => (accSeq b m a j * b).fmod m

/-! ## encoding.py -/

/-- Python `round` on the exact rational value: round to the nearest
integer, ties to even (banker's rounding).  The source computes
`round(numerator / common_den)` in floating point; the embedding uses the
exact quotient. -/
def pyRound (q : ℚ) : ℤ :=
  let f := ⌊q⌋
  let frac := q - f
  if frac < 1 / 2 then f
  else if 1 / 2 < frac then f + 1
  else if f % 2 = 0 then f else f + 1

/-- Specification of `np.argsort(-np.abs(importance))` as used by
`adaptive_precision_map` in `src/crypto/encoding.py`: numpy's default sort is
not stable, so the ranking is modelled as any permutation of the index range
that orders the absolute importances in descending order. -/
def argsortSpec (importance : List ℚ) (ranked : List ℕ) : Prop :=
  ranked.Perm (List.range importance.length) ∧
  ranked.Pairwise (fun a b => |importance.getD b 0| ≤ |importance.getD a 0|)

/-- Embeds `adaptive_precision_map` from `src/crypto/encoding.py`.  The
`ranked` argument stands for the value of `np.argsort(-np.abs(importance))`
(see `argsortSpec`); `int(np.ceil ...)` on a positive value is `Int.toNat`
of the rational ceiling; `mid_ratio = 0.3` is `3/10`.  The two fancy-indexed
assignments into the `low_bits`-filled array write disjoint index segments
whenever `ranked` has no duplicates, which is how they are rendered here. -/
def adaptive_precision_map (importance : List ℚ) (ranked : List ℕ) (k_ratio : ℚ)
    (high_bits mid_bits low_bits : ℤ) : Except String (List ℤ) :=
  if importance.length = 0 then Except.error "importance array must not be empty"
  else if ¬(0 < k_ratio ∧ k_ratio < 1) then Except.error "k_ratio must be in (0, 1)"
  else
    let n := importance.length
    let top_count := max 1 (Int.toNat ⌈(n : ℚ) * k_ratio⌉)
    let mid_count := max 1 (Int.toNat ⌈(n : ℚ) * (3 / 10)⌉)
    let mid_end := min (top_count + mid_count) n
    Except.ok ((List.range n).map (fun p =>
      if p ∈ ranked.take top_count then high_bits
      else if p ∈ (ranked.drop top_count).take (mid_end - top_count) then mid_bits
      else low_bits))

/-- Embeds `quantize_value` from `src/crypto/encoding.py`: divide by the
scale, clamp to the signed `bits`-bit range, round to nearest. -/
def quantize_value (value : ℚ) (bits : ℕ) (scale : ℚ) : Except String ℤ :=
  if bits < 1 then Except.error "bits must be >= 1"
  else if scale = 0 then Except.error "scale must be non-zero"
  else
    let max_val : ℤ := 2 ^ (bits - 1) - 1
    let min_val : ℤ := -(2 ^ (bits - 1))
    let scaled := value / scale
    let clamped := max (min_val : ℚ) (min (max_val : ℚ) scaled)
    Except.ok (pyRound clamped)

/-- Embeds `dequantize_value` from `src/crypto/encoding.py`. -/
def dequantize_value (value : ℤ) (bits : ℕ) (scale : ℚ) : Except String ℚ :=
  if bits < 1 then Except.error "bits must be >= 1"
  else if scale = 0 then Except.error "scale must be non-zero"
  else Except.ok ((value : ℚ) * scale)

/-- Embeds `pack_vector` from `src/crypto/encoding.py`.  The bit-stream is a
natural number; `int(v) & mask` with `mask = (1 << bw) - 1` is Python's
two's-complement masking, i.e. `v mod 2 ^ bw`, rendered as
`(v.fmod (2 ^ bw)).toNat`.  The chunk-extraction loop appends chunk number
`len(chunks)` at each step, i.e. it maps over `range num_chunks`. -/
def pack_vector (values : List ℤ) (bit_widths : List ℕ) (chunk_bits : ℕ) :
    Except String (List ℕ) :=
  if values.length ≠ bit_widths.length then
    Except.error "values length != bit_widths length"
  else
    let st := (values.zip bit_widths).foldl
      (fun (acc : ℕ × ℕ) vb =>
        ((acc.1 <<< vb.2) ||| (vb.1.fmod ((2 : ℤ) ^ vb.2)).toNat, acc.2 + vb.2))
      (0, 0)
    let stream := st.1
    let total_bits := st.2
    let num_chunks := (total_bits + chunk_bits - 1) / chunk_bits
    let pad := num_chunks * chunk_bits - total_bits
    let padded := stream <<< pad
    let chunk_mask := (1 <<< chunk_bits) - 1
    Except.ok ((List.range num_chunks).map (fun idx =>
      (padded >>> ((num_chunks - 1 - idx) * chunk_bits)) &&& chunk_mask))

/-- Embeds `unpack_vector` from `src/crypto/encoding.py`.  Chunks produced by
`pack_vector` are nonnegative, hence `ℕ`.  The source appends the decoded
values (least-significant field first) and reverses at the end; consing and
not reversing builds the same list. -/
def unpack_vector (chunks : List ℕ) (bit_widths : List ℕ) (chunk_bits : ℕ)
    (length : ℕ) : Except String (List ℤ) :=
  if chunks.isEmpty then Except.error "chunks list must not be empty"
  else
    let n := if 0 < length then length else bit_widths.length
    if n = 0 then Except.error "bit_widths must not be empty when length is 0"
    else
      let stream0 := chunks.foldl (fun s c => (s <<< chunk_bits) ||| c) 0
      let total_packed := chunks.length * chunk_bits
      let total_bits := ((bit_widths.take n).foldl (· + ·) 0)
      let pad := total_packed - total_bits
      let res := (List.range n).foldl
        (fun (acc : List ℤ × ℕ) k =>
          let i := n - 1 - k
          let bw := bit_widths.getD i 0
          let encoded : ℕ := acc.2 &&& ((1 <<< bw) - 1)
          let v : ℤ :=
            if 2 ^ (bw - 1) ≤ encoded then (encoded : ℤ) - 2 ^ bw else (encoded : ℤ)
          (v :: acc.1, acc.2 >>> bw))
        ([], stream0 >>> pad)
      Except.ok res.1

/-! ## iss.py -/

/-- The polynomial-evaluation loop of `share` in `src/crypto/iss.py`:
state `(y, xi)` with `y += a_k * xi; xi *= x`. -/
def polyEval (coeffs : List ℤ) (x : ℤ) : ℤ :=
  (coeffs.foldl (fun (acc : ℤ × ℤ) a => (acc.1 + a * acc.2, acc.2 * x)) (0, 1)).1

/-- Embeds `share` from `src/crypto/iss.py`.  The `t` random coefficients
drawn from `secrets.randbelow` are modelled by the explicit argument
`coeffs` (the correctness claims quantify over every choice); the share
count and threshold are `ℕ` since negative values fail the same guards. -/
def share (secret : ℤ) (n t : ℕ) (coeffs : List ℤ) (prime : Option ℤ) :
    Except String (List (ℤ × ℤ)) :=
  if n < 1 then Except.error "n must be >= 1"
  else if t < 1 then Except.error "t must be >= 1"
  else if n ≤ t then Except.error "t must be < n"
  else Except.ok ((List.range n).map (fun (i : ℕ) =>
    let x : ℤ := (i : ℤ) + 1
    let y := polyEval (secret :: coeffs) x
    (x, match prime with
        | some p => y.fmod p
        | none => y)))

/-- The numerator product of `_lagrange_basis` in `src/crypto/iss.py`:
`num *= -x_m` over all indices `m ≠ j`, on the x-coordinate list `xs`. -/
def basisNum (xs : List ℤ) (j : ℕ) : ℤ :=
  (((List.range xs.length).filter (fun m => m ≠ j)).map (fun m => -(xs.getD m 0))).prod

/-- The denominator product of `_lagrange_basis` in `src/crypto/iss.py`:
`den *= x_j - x_m` over all indices `m ≠ j`. -/
def basisDen (xs : List ℤ) (j : ℕ) : ℤ :=
  (((List.range xs.length).filter (fun m => m ≠ j)).map
    (fun m => xs.getD j 0 - xs.getD m 0)).prod

/-- Embeds `_lagrange_basis` from `src/crypto/iss.py`: the Lagrange basis
coefficient at `x = 0` as a `(numerator, denominator)` pair, reduced
modulo `prime` when one is given, with the duplicate-x-coordinate check. -/
def _lagrange_basis (shares : List (ℤ × ℤ)) (j : ℕ) (prime : Option ℤ) :
    Except String (ℤ × ℤ) :=
  let xs := shares.map Prod.fst
  if (List.range shares.length).any
      (fun m => m != j && (xs.getD m 0 == xs.getD j 0)) then
    Except.error "Duplicate x-coordinate"
  else
    let num := basisNum xs j
    let den := basisDen xs j
    match prime with
    | some p => Except.ok (num.fmod p, den.fmod p)
    | none => Except.ok (num, den)

/-- Embeds `reconstruct` from `src/crypto/iss.py`.  Modular mode folds the
per-share contribution `(secret + y_j * num % p * den_inv) % p` with the
Fermat inverse `pow(den, p - 2, p)`; integer mode collects all basis pairs,
forms the common denominator, and divides exactly, falling back to Python
`round` of the float quotient (modelled by `pyRound` of the exact quotient)
when the division is inexact. -/
def reconstruct (shares : List (ℤ × ℤ)) (t : ℕ) (prime : Option ℤ) :
    Except String ℤ :=
  if shares.length < t + 1 then Except.error "insufficient shares"
  else
    let subset := shares.take (t + 1)
    match prime with
    | some p =>
      (List.range subset.length).foldlM
        (fun acc j => do
          let nd ← _lagrange_basis subset j (some p)
          let den_inv := (nd.2 ^ (p - 2).toNat).fmod p
          pure ((acc + ((subset.getD j (0, 0)).2 * nd.1).fmod p * den_inv).fmod p))
        (0 : ℤ)
    | none => do
      let bases ← (List.range subset.length).mapM
        (fun j => _lagrange_basis subset j none)
      let common_den := (bases.map Prod.snd).prod
      let numerator := (List.range subset.length).foldl
        (fun acc j =>
          acc + (subset.getD j (0, 0)).2 * (bases.getD j (0, 0)).1
            * (common_den.fdiv ((bases.getD j (0, 0)).2)))
        (0 : ℤ)
      if numerator.fmod common_den ≠ 0 then
        pure (pyRound ((numerator : ℚ) / (common_den : ℚ)))
      else pure (numerator.fdiv common_den)

/-- The common denominator `common_den = ∏ den_j` formed by the integer-mode
branch of `reconstruct`. -/
def reconDen (subset : List (ℤ × ℤ)) : ℤ :=
  ((List.range subset.length).map
    (fun j => basisDen (subset.map Prod.fst) j)).prod

/-- The accumulated numerator `Σ y_j · num_j · (common_den // den_j)` formed
by the integer-mode branch of `reconstruct`. -/
def reconNum (subset : List (ℤ × ℤ)) : ℤ :=
  ((List.range subset.length).map (fun j =>
    (subset.getD j (0, 0)).2 * basisNum (subset.map Prod.fst) j
      * ((reconDen subset).fdiv (basisDen (subset.map Prod.fst) j)))).sum

/-! ## tjl.py -/

/-- Embeds the `TJLParams` dataclass from `src/crypto/tjl.py`. -/
structure TJLParams where
  n : ℤ
  n_squared : ℤ
  g : ℤ
  h : ℤ

/-- Embeds `aggregate` from `src/crypto/tjl.py`: the product of all
ciphertexts modulo `n²`, failing on an empty list. -/
def aggregate (params : TJLParams) (ciphertexts : List ℤ) : Except String ℤ :=
  if ciphertexts.isEmpty then Except.error "ciphertexts list must not be empty"
  else Except.ok (ciphertexts.foldl
    (fun result ct => (result * ct).fmod params.n_squared) 1)

/-- Embeds `share_combine` from `src/crypto/tjl.py`: multiply the first
`threshold` partial shares modulo `n²`, apply the Paillier L-function when
the division is exact, otherwise fall back to the brute-force discrete log
(with the Python default bound `10000`). -/
def share_combine (params : TJLParams) (shares : List ℤ) (threshold : ℕ) :
    Except String ℤ :=
  if shares.length < threshold then Except.error "insufficient shares"
  else
    let combined := (shares.take threshold).foldl
      (fun acc s => (acc * s).fmod params.n_squared) 1
    let numerator := (combined - 1).fmod params.n_squared
    if numerator.fmod params.n ≠ 0 then
      discrete_log_brute combined params.g params.n_squared 10000
    else Except.ok ((numerator.fdiv params.n).fmod params.n)

/-! ## General helper lemmas -/

theorem list_range_map_sum {M : Type*} [AddCommMonoid M] (f : ℕ → M) (n : ℕ) :
    ((List.range n).map f).sum = ∑ j in Finset.range n, f j := by
  induction n with
  | zero => simp
  | succ n ih => rw [List.range_succ, List.map_append, List.sum_append,
      Finset.sum_range_succ, ih]; simp

theorem list_range_map_prod {M : Type*} [CommMonoid M] (f : ℕ → M) (n : ℕ) :
    ((List.range n).map f).prod = ∏ j in Finset.range n, f j := by
  induction n with
  | zero => simp
  | succ n ih => rw [List.range_succ, List.map_append, List.prod_append,
      Finset.prod_range_succ, ih]; simp

theorem list_range_filter_map_prod {M : Type*} [CommMonoid M] (f : ℕ → M)
    (p : ℕ → Prop) [DecidablePred p] (n : ℕ) :
    (((List.range n).filter (fun m => decide (p m))).map f).prod =
      ∏ j in (Finset.range n).filter p, f j := by
  induction n with
  | zero => simp
  | succ n ih =>
    rw [List.range_succ, List.filter_append, List.map_append, List.prod_append,
      Finset.range_succ, Finset.filter_insert]
    by_cases hp : p n
    · rw [if_pos hp, Finset.prod_insert (by simp), ih]
      simp [List.filter_cons, hp, mul_comm]
    · rw [if_neg hp, ih]
      simp [List.filter_cons, hp]

theorem list_range_foldl_add {M : Type*} [AddCommMonoid M] (g : ℕ → M) (n : ℕ)
    (a : M) :
    (List.range n).foldl (fun acc j => acc + g j) a = a + ∑ j in Finset.range n, g j := by
  induction n generalizing a with
  | zero => simp
  | succ n ih =>
    rw [List.range_succ, List.foldl_append, ih, Finset.sum_range_succ]
    simp [add_assoc]

theorem foldl_mul_fmod_ne_nil (m : ℤ) (hm : 0 < m) (l : List ℤ) (hl : l ≠ [])
    (a : ℤ) :
    l.foldl (fun acc s => (acc * s).fmod m) a = (a * l.prod).fmod m := by
  induction l generalizing a with
  | nil => exact absurd rfl hl
  | cons c rest ih =>
    rcases eq_or_ne rest [] with h | h
    · simp [h, Int.fmod_eq_emod _ (le_of_lt hm)]
    · rw [List.foldl_cons, ih h, List.prod_cons]
      simp only [Int.fmod_eq_emod _ (le_of_lt hm)]
      rw [Int.mul_emod (a * c % m) rest.prod, Int.emod_emod_of_dvd _ dvd_rfl,
        ← Int.mul_emod, mul_assoc]

theorem foldl_mul_fmod (m : ℤ) (hm : 1 < m) (l : List ℤ) :
    l.foldl (fun acc s => (acc * s).fmod m) 1 = l.prod.fmod m := by
  rcases eq_or_ne l [] with h | h
  · simp [h, Int.fmod_eq_emod _ (by omega : (0:ℤ) ≤ m), Int.emod_eq_of_lt (by omega) hm]
  · rw [foldl_mul_fmod_ne_nil m (by omega) l h, one_mul]

/-! ## Claim theorems: C10, C6, C3 -/

/-- Claim C10: `pack_vector` on the empty values/bit-widths arrays returns an
empty chunk list, while `unpack_vector` rejects every empty chunk list, so
the round trip fails for zero-length vectors at the public interface. -/
theorem c10_empty_pack_unpack :
    (∀ cb : ℕ, pack_vector [] [] cb = Except.ok []) ∧
    (∀ (bw : List ℕ) (cb len : ℕ),
      unpack_vector [] bw cb len = Except.error "chunks list must not be empty") := by
  constructor
  · intro cb
    have hdiv : (cb - 1) / cb = 0 := by
      rcases Nat.eq_zero_or_pos cb with h | h
      · simp [h]
      · exact Nat.div_eq_of_lt (by omega)
    simp [pack_vector, hdiv]
  · intro bw cb len
    simp [unpack_vector]

/-- Claim C6: `aggregate` fails on the empty list, returns the product of the
ciphertexts modulo `n²` on any non-empty list, is invariant under
permutations of the ciphertext list, and combining two aggregates aggregates
the concatenation. -/
theorem c6_aggregate_product (params : TJLParams) (hm : 0 < params.n_squared) :
    (aggregate params [] = Except.error "ciphertexts list must not be empty") ∧
    (∀ cts : List ℤ, cts ≠ [] →
      aggregate params cts = Except.ok (cts.prod.fmod params.n_squared)) ∧
    (∀ cts1 cts2 : List ℤ, cts1.Perm cts2 →
      aggregate params cts1 = aggregate params cts2) ∧
    (∀ (cts1 cts2 : List ℤ) (a1 a2 : ℤ),
      aggregate params cts1 = Except.ok a1 → aggregate params cts2 = Except.ok a2 →
      aggregate params (cts1 ++ cts2) = aggregate params [a1, a2]) := by
  have hagg : ∀ cts : List ℤ, cts ≠ [] →
      aggregate params cts = Except.ok (cts.prod.fmod params.n_squared) := by
    intro cts h
    rw [aggregate, if_neg (by simpa [List.isEmpty_iff] using h)]
    rw [foldl_mul_fmod_ne_nil params.n_squared hm cts h 1, one_mul]
  refine ⟨by simp [aggregate], hagg, ?_, ?_⟩
  · intro cts1 cts2 hperm
    rcases eq_or_ne cts1 [] with h | h
    · rw [h] at hperm ⊢
      rw [List.nil_perm] at hperm
      rw [hperm]
    · have h2 : cts2 ≠ [] := by
        intro hc
        rw [hc, List.perm_nil] at hperm
        exact h hperm
      rw [hagg cts1 h, hagg cts2 h2, hperm.prod_eq]
  · intro cts1 cts2 a1 a2 h1 h2
    have hne1 : cts1 ≠ [] := by
      intro h
      rw [h] at h1
      simp [aggregate] at h1
    have hne2 : cts2 ≠ [] := by
      intro h
      rw [h] at h2
      simp [aggregate] at h2
    rw [hagg cts1 hne1] at h1
    rw [hagg cts2 hne2] at h2
    rw [hagg (cts1 ++ cts2) (by simp [hne1]), hagg [a1, a2] (by simp)]
    have e1 : a1 = cts1.prod.fmod params.n_squared := by
      simpa using h1.symm
    have e2 : a2 = cts2.prod.fmod params.n_squared := by
      simpa using h2.symm
    rw [e1, e2, List.prod_append]
    simp only [List.prod_cons, List.prod_nil, mul_one]
    rw [Int.fmod_eq_emod _ (le_of_lt hm), Int.fmod_eq_emod _ (le_of_lt hm),
      Int.fmod_eq_emod _ (le_of_lt hm), Int.fmod_eq_emod _ (le_of_lt hm),
      ← Int.mul_emod]

/-- Claim C3: `share_combine` fails with the insufficient-data error exactly
when fewer than `threshold` shares are supplied; otherwise it multiplies the
first `threshold` shares modulo `n²` and applies the L-function `(x-1)/n`
when the division by `n` is exact, falling back to the brute-force discrete
log on `g` otherwise; shares beyond the first `threshold` never change the
result. -/
theorem c3_share_combine (params : TJLParams) (shares : List ℤ) (threshold : ℕ)
    (hm : 1 < params.n_squared) :
    (shares.length < threshold →
      share_combine params shares threshold = Except.error "insufficient shares") ∧
    (threshold ≤ shares.length →
      share_combine params shares threshold =
        (if ((((shares.take threshold).prod.fmod params.n_squared - 1).fmod
              params.n_squared).fmod params.n = 0) then
          Except.ok (((((shares.take threshold).prod.fmod params.n_squared - 1).fmod
            params.n_squared).fdiv params.n).fmod params.n)
        else
          discrete_log_brute ((shares.take threshold).prod.fmod params.n_squared)
            params.g params.n_squared 10000)) ∧
    (∀ extra : List ℤ, threshold ≤ shares.length →
      share_combine params (shares ++ extra) threshold =
        share_combine params shares threshold) := by
  refine ⟨?_, ?_, ?_⟩
  · intro h
    simp [share_combine, h]
  · intro h
    have hfold := foldl_mul_fmod params.n_squared hm (shares.take threshold)
    simp only [share_combine, hfold]
    rw [if_neg (by omega)]
    by_cases hz :
      (((shares.take threshold).prod.fmod params.n_squared - 1).fmod
        params.n_squared).fmod params.n = 0
    · simp [hz]
    · simp [hz]
  · intro extra h
    have ht : (shares ++ extra).take threshold = shares.take threshold := by
      rw [List.take_append_eq_append_take, Nat.sub_eq_zero_of_le h, List.take_zero,
        List.append_nil]
    have h1 : ¬ shares.length + extra.length < threshold := by omega
    have h2 : ¬ shares.length < threshold := by omega
    simp only [share_combine, ht, List.length_append]
    simp [h1, h2]

/-- Witness for C3 at concrete inputs. -/
theorem c3_share_combine_witness :
    ((1 : ℤ) < 25) ∧ (2 : ℕ) ≤ ([6, 11] : List ℤ).length ∧
    share_combine ⟨5, 25, 6, 2⟩ [6, 11] 2 =
      (if ((((([6, 11] : List ℤ).take 2).prod.fmod 25 - 1).fmod 25).fmod 5 = 0) then
        Except.ok ((((([6, 11] : List ℤ).take 2).prod.fmod 25 - 1).fmod 25).fdiv 5 |>.fmod 5)
      else
        discrete_log_brute ((([6, 11] : List ℤ).take 2).prod.fmod 25) 6 25 10000) :=
  ⟨by norm_num, by decide,
    (c3_share_combine ⟨5, 25, 6, 2⟩ [6, 11] 2 (by norm_num)).2.1 (by decide)⟩

/-- Witness for C6 at concrete inputs. -/
theorem c6_aggregate_witness :
    aggregate ⟨5, 25, 6, 2⟩ [7, 8] = Except.ok (([7, 8] : List ℤ).prod.fmod 25) :=
  (c6_aggregate_product ⟨5, 25, 6, 2⟩ (by norm_num)).2.1 [7, 8] (by decide)

/-! ## Claim C7: quantization -/

theorem pyRound_eq_floor_or_succ (q : ℚ) : pyRound q = ⌊q⌋ ∨ pyRound q = ⌊q⌋ + 1 := by
  simp only [pyRound]
  split_ifs <;> simp

theorem le_pyRound (a : ℤ) (q : ℚ) (h : (a : ℚ) ≤ q) : a ≤ pyRound q := by
  have hf : a ≤ ⌊q⌋ := Int.le_floor.mpr h
  rcases pyRound_eq_floor_or_succ q with h1 | h1 <;> omega

theorem pyRound_le (a : ℤ) (q : ℚ) (h : q ≤ (a : ℚ)) : pyRound q ≤ a := by
  have hf : ⌊q⌋ ≤ a := by
    have h2 : ⌊q⌋ ≤ ⌊(a : ℚ)⌋ := Int.floor_le_floor h
    simpa using h2
  have hsucc : ¬(q - (⌊q⌋ : ℚ) < 1 / 2) → ⌊q⌋ + 1 ≤ a := by
    intro hfr
    have h0 : (⌊q⌋ : ℚ) < q := by
      push_neg at hfr
      linarith
    have h1 : (⌊q⌋ : ℚ) < (a : ℚ) := lt_of_lt_of_le h0 h
    have h2 : ⌊q⌋ < a := by exact_mod_cast h1
    omega
  simp only [pyRound]
  split_ifs with h1 h2 h3
  · exact hf
  · exact hsucc h1
  · exact hf
  · exact hsucc h1

theorem abs_pyRound_sub_le (q : ℚ) : |(pyRound q : ℚ) - q| ≤ 1 / 2 := by
  have h0 : (0 : ℚ) ≤ q - ⌊q⌋ := by linarith [Int.floor_le q]
  have h1 : q - (⌊q⌋ : ℚ) < 1 := by linarith [Int.lt_floor_add_one q]
  simp only [pyRound]
  split_ifs with ha hb hc
  · rw [abs_le]
    constructor <;> linarith
  · rw [abs_le]
    push_cast
    constructor <;> linarith
  · rw [abs_le]
    constructor <;> linarith
  · rw [abs_le]
    push_cast
    constructor <;> linarith

/-- Claim C7 (amended): the quantized value always lies in the signed
`bits`-bit range, and for representable inputs the dequantized value is
within `|scale| / 2` of the original (the claim as stated uses `scale / 2`,
which fails for negative scales, see the counterexample). -/
theorem c7_quantize_roundtrip :
    (∀ (value scale : ℚ) (bits : ℕ), 1 ≤ bits → scale ≠ 0 →
      ∃ q : ℤ, quantize_value value bits scale = Except.ok q ∧
        -(2 ^ (bits - 1)) ≤ q ∧ q ≤ 2 ^ (bits - 1) - 1) ∧
    (∀ (value scale : ℚ) (bits : ℕ), 1 ≤ bits → scale ≠ 0 →
      ((-(2 ^ (bits - 1)) : ℤ) : ℚ) ≤ value / scale →
      value / scale ≤ (((2 : ℤ) ^ (bits - 1) - 1 : ℤ) : ℚ) →
      ∃ (q : ℤ) (r : ℚ), quantize_value value bits scale = Except.ok q ∧
        dequantize_value q bits scale = Except.ok r ∧
        |r - value| ≤ |scale| / 2) := by
  have hq : ∀ (value scale : ℚ) (bits : ℕ), 1 ≤ bits → scale ≠ 0 →
      quantize_value value bits scale =
        Except.ok (pyRound (max ((-(2 ^ (bits - 1)) : ℤ) : ℚ)
          (min (((2 : ℤ) ^ (bits - 1) - 1 : ℤ) : ℚ) (value / scale)))) := by
    intro value scale bits hb hs
    rw [quantize_value, if_neg (by omega), if_neg hs]
  have hminmax : ∀ bits : ℕ, ((-(2 ^ (bits - 1)) : ℤ) : ℚ) ≤ (((2 : ℤ) ^ (bits - 1) - 1 : ℤ) : ℚ) := by
    intro bits
    have h2 : 0 < 2 ^ (bits - 1) := Nat.two_pow_pos (bits - 1)
    have h3 : (1 : ℚ) ≤ 2 ^ (bits - 1) := by exact_mod_cast h2
    push_cast
    linarith
  constructor
  · intro value scale bits hb hs
    refine ⟨_, hq value scale bits hb hs, ?_, ?_⟩
    · exact le_pyRound _ _ (le_max_left _ _)
    · exact pyRound_le _ _ (max_le (hminmax bits) (min_le_left _ _))
  · intro value scale bits hb hs hlo hhi
    have hclamp : max ((-(2 ^ (bits - 1)) : ℤ) : ℚ)
        (min (((2 : ℤ) ^ (bits - 1) - 1 : ℤ) : ℚ) (value / scale)) = value / scale := by
      rw [min_eq_right hhi, max_eq_right hlo]
    refine ⟨pyRound (value / scale), (pyRound (value / scale) : ℚ) * scale,
      by rw [hq value scale bits hb hs, hclamp], ?_, ?_⟩
    · rw [dequantize_value, if_neg (by omega), if_neg hs]
    · have herr := abs_pyRound_sub_le (value / scale)
      have hval : value = (value / scale) * scale := by
        field_simp
      calc |(pyRound (value / scale) : ℚ) * scale - value|
          = |((pyRound (value / scale) : ℚ) - value / scale) * scale| := by
            rw [sub_mul, ← hval]
        _ = |(pyRound (value / scale) : ℚ) - value / scale| * |scale| := abs_mul _ _
        _ ≤ (1 / 2) * |scale| := by
            exact mul_le_mul_of_nonneg_right herr (abs_nonneg scale)
        _ = |scale| / 2 := by ring

/-- Counterexample to claim C7 as stated: with `scale = -1`, the
representable value `1` round-trips exactly, but the claimed bound
`scale / 2 = -1/2` is negative, so the absolute difference is not within
`scale / 2`. -/
theorem c7_counterexample :
    (((-(2 ^ (2 - 1)) : ℤ) : ℚ) ≤ (1 : ℚ) / (-1)) ∧
    ((1 : ℚ) / (-1) ≤ (((2 : ℤ) ^ (2 - 1) - 1 : ℤ) : ℚ)) ∧
    quantize_value 1 2 (-1) = Except.ok (-1) ∧
    dequantize_value (-1) 2 (-1) = Except.ok 1 ∧
    ¬(|(1 : ℚ) - 1| ≤ (-1 : ℚ) / 2) := by
  refine ⟨by norm_num, by norm_num, ?_, by norm_num [dequantize_value], by norm_num⟩
  rw [quantize_value, if_neg (by norm_num), if_neg (by norm_num)]
  norm_num [pyRound]

/-- Witness for C7 at concrete inputs. -/
theorem c7_quantize_witness :
    (∃ q : ℤ, quantize_value (37 / 10) 8 (1 / 10) = Except.ok q ∧
      -(2 ^ (8 - 1)) ≤ q ∧ q ≤ 2 ^ (8 - 1) - 1) ∧
    (∃ (q : ℤ) (r : ℚ), quantize_value (37 / 10) 8 (1 / 10) = Except.ok q ∧
      dequantize_value q 8 (1 / 10) = Except.ok r ∧
      |r - 37 / 10| ≤ |(1 : ℚ) / 10| / 2) :=
  ⟨c7_quantize_roundtrip.1 (37 / 10) (1 / 10) 8 (by norm_num) (by norm_num),
   c7_quantize_roundtrip.2 (37 / 10) (1 / 10) 8 (by norm_num) (by norm_num)
     (by norm_num) (by norm_num)⟩

/-! ## Claim C8: mod_pow -/

theorem _extended_gcd_spec (a b : ℕ) :
    (_extended_gcd a b).1 = (Nat.gcd a b : ℤ) ∧
    (_extended_gcd a b).2.1 * a + (_extended_gcd a b).2.2 * b = (Nat.gcd a b : ℤ) := by
  induction a using Nat.strong_induction_on generalizing b with
  | _ a ih =>
    match a with
    | 0 => simp [_extended_gcd]
    | a + 1 =>
      obtain ⟨ih1, ih2⟩ := ih (b % (a + 1)) (Nat.mod_lt _ (Nat.succ_pos a)) (a + 1)
      have hb : (b : ℤ) = ((b % (a + 1) : ℕ) : ℤ) + ((b / (a + 1) : ℕ) : ℤ) * ((a + 1 : ℕ) : ℤ) := by
        exact_mod_cast (Nat.mod_add_div' b (a + 1)).symm
      constructor
      · rw [Nat.gcd_rec]
        simpa [_extended_gcd] using ih1
      · rw [Nat.gcd_rec]
        simp only [_extended_gcd]
        push_cast at ih2 hb ⊢
        linear_combination ih2 + (_extended_gcd (b % (a + 1)) (a + 1)).2.1 * hb

example : Int.gcd 3 7 = 1 := by decide


/-- Reducing the first argument modulo the second preserves the gcd. -/
theorem int_gcd_emod (a m : ℤ) : Int.gcd (a % m) m = Int.gcd a m := by
  have hmod : a % m = a - m * (a / m) := Int.emod_def a m
  apply Nat.dvd_antisymm
  · rw [← Int.natCast_dvd_natCast]
    apply Int.dvd_gcd
    · have d1 : (Int.gcd (a % m) m : ℤ) ∣ a % m := Int.gcd_dvd_left
      have d2 : (Int.gcd (a % m) m : ℤ) ∣ m := Int.gcd_dvd_right
      have hd := dvd_add d1 (d2.mul_right (a / m))
      rwa [Int.emod_add_ediv] at hd
    · exact Int.gcd_dvd_right
  · rw [← Int.natCast_dvd_natCast]
    apply Int.dvd_gcd
    · rw [hmod]
      exact dvd_sub Int.gcd_dvd_left (Int.gcd_dvd_right.mul_right _)
    · exact Int.gcd_dvd_right

/-- The gcd computed inside `mod_inv` is `Int.gcd a m`. -/
theorem egcd_fst_eq_gcd (a m : ℤ) (hm : 2 ≤ m) :
    (_extended_gcd (a.fmod m).toNat m.toNat).1 = (Int.gcd a m : ℤ) := by
  have hmn : (0 : ℤ) < m := by omega
  have hfa : (0 : ℤ) ≤ a.fmod m := Int.fmod_nonneg' a hmn
  have h0 : (0 : ℤ) ≤ a % m := Int.emod_nonneg a (by omega)
  have h1 : (a.fmod m).toNat = (a % m).natAbs := by
    rw [Int.fmod_eq_emod a (by omega)]
    omega
  have h2 : m.toNat = m.natAbs := by omega
  rw [(_extended_gcd_spec _ _).1, h1, h2]
  norm_cast
  rw [← Int.gcd_def, int_gcd_emod]


/-- `mod_inv` succeeds when the arguments are coprime. -/
theorem mod_inv_gcd_one (a m : ℤ) (hm : 2 ≤ m) (hg : Int.gcd a m = 1) :
    mod_inv a m = Except.ok ((_extended_gcd (a.fmod m).toNat m.toNat).2.1.fmod m) := by
  rw [mod_inv, if_neg (by omega), if_neg (by rw [egcd_fst_eq_gcd a m hm, hg]; simp)]

/-- `mod_inv` fails on non-coprime arguments. -/
theorem mod_inv_gcd_ne_one (a m : ℤ) (hm : 2 ≤ m) (hg : Int.gcd a m ≠ 1) :
    mod_inv a m = Except.error "no inverse" := by
  rw [mod_inv, if_neg (by omega), if_pos]
  rw [egcd_fst_eq_gcd a m hm]
  exact_mod_cast hg

/-- A successful `mod_inv` returns the inverse, reduced into `[0, m)`. -/
theorem mod_inv_ok {a m r : ℤ} (hm : 2 ≤ m) (h : mod_inv a m = Except.ok r) :
    0 ≤ r ∧ r < m ∧ (r * a).fmod m = 1 := by
  have hmn : (0 : ℤ) < m := by omega
  by_cases hg : Int.gcd a m = 1
  · rw [mod_inv_gcd_one a m hm hg] at h
    obtain ⟨hgcd, hbez⟩ := _extended_gcd_spec (a.fmod m).toNat m.toNat
    set x := (_extended_gcd (a.fmod m).toNat m.toNat).2.1 with hx
    have hr : r = x.fmod m := by
      simpa using h.symm
    have hg2 : ((Nat.gcd (a.fmod m).toNat m.toNat : ℕ) : ℤ) = 1 := by
      rw [← hgcd, egcd_fst_eq_gcd a m hm]
      exact_mod_cast hg
    have hta : ((a.fmod m).toNat : ℤ) = a % m := by
      rw [Int.fmod_eq_emod a (by omega)]
      exact Int.toNat_of_nonneg (Int.emod_nonneg a (by omega))
    have htm : ((m.toNat : ℕ) : ℤ) = m := Int.toNat_of_nonneg (by omega)
    rw [hg2, hta, htm] at hbez
    -- hbez : x * (a % m) + y * m = 1
    refine ⟨hr ▸ Int.fmod_nonneg' x hmn, hr ▸ Int.fmod_lt_of_pos x hmn, ?_⟩
    rw [hr, Int.fmod_eq_emod _ (by omega), Int.fmod_eq_emod _ (by omega)]
    have c1 : Int.ModEq m (x % m) x := Int.emod_emod_of_dvd x dvd_rfl
    have c2 : Int.ModEq m a (a % m) := (Int.emod_emod_of_dvd a dvd_rfl).symm
    have c3 : Int.ModEq m ((x % m) * a) (x * (a % m)) := c1.mul c2
    have c4 : x * (a % m) = 1 - (_extended_gcd (a.fmod m).toNat m.toNat).2.2 * m := by
      linarith [hbez]
    have c5 : Int.ModEq m (1 - (_extended_gcd (a.fmod m).toNat m.toNat).2.2 * m) 1 := by
      have hz : Int.ModEq m ((_extended_gcd (a.fmod m).toNat m.toNat).2.2 * m) 0 :=
        Int.modEq_zero_iff_dvd.mpr (dvd_mul_left m _)
      simpa using (Int.ModEq.refl 1).sub hz
    have c6 : Int.ModEq m ((x % m) * a) 1 := c3.trans (c4 ▸ c5)
    have c7 : (x % m) * a % m = 1 % m := c6
    rw [c7]
    exact Int.emod_eq_of_lt (by omega) (by omega)
  · rw [mod_inv_gcd_ne_one a m hm hg] at h
    exact absurd h (by simp)


/-- Claim C8 (amended): `mod_pow` fails with the invalid-argument error when
`mod ≤ 0`; for `mod ≥ 1` and a nonnegative exponent it succeeds and returns
`base ^ exp mod mod`; for a negative exponent it succeeds exactly when
`mod ≥ 2` and `base` is invertible modulo `mod` (returning the residue `r`
with `r * base ^ (-exp) ≡ 1`), and fails otherwise — in particular it does
not succeed for `mod = 1` with negative exponents as the claim states, see
the counterexample. -/
theorem c8_mod_pow (base exp mod : ℤ) :
    (mod ≤ 0 → mod_pow base exp mod = Except.error "mod must be positive") ∧
    (1 ≤ mod → 0 ≤ exp →
      mod_pow base exp mod = Except.ok ((base ^ exp.toNat).fmod mod) ∧
      0 ≤ (base ^ exp.toNat).fmod mod ∧ (base ^ exp.toNat).fmod mod < mod) ∧
    (exp < 0 → 2 ≤ mod → Int.gcd base mod = 1 →
      ∃ r, mod_pow base exp mod = Except.ok r ∧ 0 ≤ r ∧ r < mod ∧
        (r * base ^ (-exp).toNat).fmod mod = 1) ∧
    (exp < 0 → 1 ≤ mod → (mod < 2 ∨ Int.gcd base mod ≠ 1) →
      ∃ e, mod_pow base exp mod = Except.error e) := by
  refine ⟨?_, ?_, ?_, ?_⟩
  · intro h
    rw [mod_pow, if_pos h]
  · intro h1 h2
    rw [mod_pow, if_neg (by omega), if_neg (by omega)]
    exact ⟨rfl, Int.fmod_nonneg' _ (by omega), Int.fmod_lt_of_pos _ (by omega)⟩
  · intro hneg hm hg
    obtain ⟨inv, hinv⟩ : ∃ r, mod_inv base mod = Except.ok r :=
      ⟨_, mod_inv_gcd_one base mod hm hg⟩
    obtain ⟨hinv0, hinvlt, hinv1⟩ := mod_inv_ok hm hinv
    refine ⟨(inv ^ (-exp).toNat).fmod mod, ?_, Int.fmod_nonneg' _ (by omega),
      Int.fmod_lt_of_pos _ (by omega), ?_⟩
    · rw [mod_pow, if_neg (by omega), if_pos hneg, hinv]
    · set e := (-exp).toNat
      rw [Int.fmod_eq_emod _ (by omega), Int.fmod_eq_emod _ (by omega)]
      rw [Int.fmod_eq_emod _ (by omega)] at hinv1
      have c1 : Int.ModEq mod ((inv ^ e) % mod) (inv ^ e) :=
        Int.emod_emod_of_dvd _ dvd_rfl
      have c2 : Int.ModEq mod ((inv ^ e % mod) * base ^ e) ((inv * base) ^ e) := by
        have := c1.mul (Int.ModEq.refl (base ^ e))
        calc (inv ^ e % mod) * base ^ e ≡ inv ^ e * base ^ e [ZMOD mod] := this
          _ = (inv * base) ^ e := by rw [mul_pow]
      have c3 : Int.ModEq mod ((inv * base) ^ e) 1 := by
        have cbase : Int.ModEq mod ((inv * base) % mod) (inv * base) :=
          Int.emod_emod_of_dvd _ dvd_rfl
        calc (inv * base) ^ e ≡ ((inv * base) % mod) ^ e [ZMOD mod] :=
              (cbase.symm).pow e
          _ = 1 ^ e := by rw [hinv1]
          _ = 1 := one_pow e
      have c4 : ((inv ^ e % mod) * base ^ e) % mod = 1 % mod := c2.trans c3
      rw [c4]
      exact Int.emod_eq_of_lt (by omega) (by omega)
  · intro hneg h1 hcase
    rw [mod_pow, if_neg (show ¬ mod ≤ 0 by omega), if_pos hneg]
    rcases hcase with h | h
    · have hmod1 : mod_inv base mod = Except.error "mod must be >= 2" := by
        rw [mod_inv, if_pos h]
      rw [hmod1]
      exact ⟨_, rfl⟩
    · have hm2 : 2 ≤ mod := by
        by_contra hc
        have hm1 : mod = 1 := by omega
        rw [hm1] at h
        exact h (by simp [Int.gcd])
      rw [mod_inv_gcd_ne_one base mod hm2 h]
      exact ⟨_, rfl⟩

/-- Counterexample to claim C8 as stated: with `mod = 1` and a negative
exponent, `mod_pow` raises (the `mod_inv` guard requires `mod ≥ 2`) instead
of succeeding. -/
theorem c8_counterexample :
    mod_pow 2 (-1) 1 = Except.error "mod must be >= 2" := rfl

/-- Witness for C8 at concrete inputs. -/
theorem c8_mod_pow_witness :
    ∃ r, mod_pow 3 (-2) 7 = Except.ok r ∧ 0 ≤ r ∧ r < 7 ∧
      (r * 3 ^ (-(-2 : ℤ)).toNat).fmod 7 = 1 :=
  (c8_mod_pow 3 (-2) 7).2.2.1 (by norm_num) (by norm_num) (by decide)

/-! ## Claim C4: discrete log -/

theorem accSeq_shift (b m a : ℤ) (j : ℕ) :
    accSeq b m a (j + 1) = accSeq b m ((a * b).fmod m) j := by
  induction j with
  | zero => simp [accSeq]
  | succ j ih => rw [accSeq, ih, accSeq]

theorem dlogScan_none_iff (t b m a : ℤ) (s c : ℕ) :
    dlogScan t b m a s c = none ↔ ∀ j < c, accSeq b m a j ≠ t := by
  induction c generalizing a s with
  | zero => simp [dlogScan]
  | succ c ih =>
    rw [dlogScan]
    by_cases h : a = t
    · rw [if_pos h]
      simp only [reduceCtorEq, false_iff, not_forall]
      exact ⟨0, by omega, by simpa [accSeq] using h⟩
    · rw [if_neg h, ih]
      constructor
      · intro hall j hj
        match j with
        | 0 => simpa [accSeq] using h
        | j + 1 =>
          rw [accSeq_shift]
          exact hall j (by omega)
      · intro hall j hj
        rw [← accSeq_shift]
        exact hall (j + 1) (by omega)

theorem dlogScan_some (t b m a : ℤ) (s c k : ℕ)
    (h : dlogScan t b m a s c = some k) :
    s ≤ k ∧ k < s + c ∧ accSeq b m a (k - s) = t := by
  induction c generalizing a s with
  | zero => simp [dlogScan] at h
  | succ c ih =>
    rw [dlogScan] at h
    by_cases ha : a = t
    · rw [if_pos ha] at h
      have hk : s = k := by simpa using h
      subst hk
      exact ⟨le_refl s, by omega, by simpa [accSeq] using ha⟩
    · rw [if_neg ha] at h
      obtain ⟨h1, h2, h3⟩ := ih ((a * b).fmod m) (s + 1) h
      refine ⟨by omega, by omega, ?_⟩
      have hk : k - s = (k - (s + 1)) + 1 := by omega
      rw [hk, accSeq_shift]
      exact h3

theorem accSeq_eq (b m a : ℤ) (hm : 0 < m) (ha : a % m = a) (j : ℕ) :
    accSeq b m a j = (a * b ^ j) % m := by
  induction j with
  | zero => simp [accSeq, ha]
  | succ j ih =>
    rw [accSeq, ih, Int.fmod_eq_emod _ (by omega)]
    rw [Int.mul_emod, Int.emod_emod_of_dvd _ dvd_rfl, ← Int.mul_emod, mul_assoc,
      ← pow_succ]

/-- Claim C4 (amended): brute-force discrete log after `mod_pow` recovers an
exponent equivalent to `x`, not necessarily `x` itself: for `2 ≤ modulus`
and `|x| ≤ max_val`, if `mod_pow base x modulus = ok target` then
`discrete_log_brute target base modulus max_val` succeeds with some
`y ∈ [-max_val, max_val]` whose `mod_pow` is the same `target` (the claim's
exact recovery `y = x` fails whenever the base has small multiplicative
order, see the counterexample). -/
theorem c4_discrete_log (base modulus target x : ℤ) (max_val : ℕ)
    (hm : 2 ≤ modulus) (hx1 : -(max_val : ℤ) ≤ x) (hx2 : x ≤ max_val)
    (ht : mod_pow base x modulus = Except.ok target) :
    ∃ y : ℤ, discrete_log_brute target base modulus max_val = Except.ok y ∧
      -(max_val : ℤ) ≤ y ∧ y ≤ max_val ∧
      mod_pow base y modulus = Except.ok target := by
  have hm0 : (0 : ℤ) < modulus := by omega
  have hone : (1 : ℤ) % modulus = 1 := Int.emod_eq_of_lt (by omega) (by omega)
  -- extract the bounds of target from ht
  have htar : 0 ≤ target ∧ target < modulus := by
    have ht2 := ht
    rw [mod_pow, if_neg (show ¬ modulus ≤ 0 by omega)] at ht2
    by_cases hxneg : x < 0
    · rw [if_pos hxneg] at ht2
      cases hinv : mod_inv base modulus with
      | error e => rw [hinv] at ht2; simp at ht2
      | ok inv =>
        rw [hinv] at ht2
        simp only [Except.ok.injEq] at ht2
        exact ht2 ▸ ⟨Int.fmod_nonneg' _ hm0, Int.fmod_lt_of_pos _ hm0⟩
    · rw [if_neg hxneg] at ht2
      simp only [Except.ok.injEq] at ht2
      exact ht2 ▸ ⟨Int.fmod_nonneg' _ hm0, Int.fmod_lt_of_pos _ hm0⟩
  have htfix : target.fmod modulus = target := Int.fmod_eq_of_lt htar.1 htar.2
  cases hscan : dlogScan target base modulus 1 0 (max_val + 1) with
  | some k =>
    obtain ⟨hk1, hk2, hk3⟩ := dlogScan_some target base modulus 1 0 (max_val + 1) k hscan
    rw [accSeq_eq base modulus 1 hm0 hone (k - 0), Nat.sub_zero, one_mul] at hk3
    refine ⟨(k : ℤ), ?_, by omega, by omega, ?_⟩
    · simp only [discrete_log_brute, htfix, hscan]
    · rw [mod_pow, if_neg (show ¬ modulus ≤ 0 by omega),
        if_neg (show ¬ (k : ℤ) < 0 by omega), Int.toNat_natCast,
        Int.fmod_eq_emod _ (by omega), hk3]
  | none =>
    have hnone := (dlogScan_none_iff target base modulus 1 0 (max_val + 1)).mp hscan
    have ht2 := ht
    rw [mod_pow, if_neg (show ¬ modulus ≤ 0 by omega)] at ht2
    by_cases hxneg : x < 0
    · -- negative exponent: the inverse scan must succeed
      rw [if_pos hxneg] at ht2
      cases hinv : mod_inv base modulus with
      | error e => rw [hinv] at ht2; simp at ht2
      | ok inv =>
        rw [hinv] at ht2
        simp only [Except.ok.injEq] at ht2
        obtain ⟨hinv0, hinvlt, hinv1⟩ := mod_inv_ok hm hinv
        have hinvfix : inv % modulus = inv := Int.emod_eq_of_lt hinv0 hinvlt
        have he1 : 1 ≤ (-x).toNat := by omega
        have he2 : (-x).toNat ≤ max_val := by omega
        have htinv : (inv ^ (-x).toNat) % modulus = target := by
          rw [← Int.fmod_eq_emod _ (by omega), ht2]
        cases hscan2 : dlogScan target inv modulus inv 1 max_val with
        | none =>
          exfalso
          have hn2 := (dlogScan_none_iff target inv modulus inv 1 max_val).mp hscan2
          apply hn2 ((-x).toNat - 1) (by omega)
          rw [accSeq_eq inv modulus inv hm0 hinvfix, ← pow_succ']
          rw [show (-x).toNat - 1 + 1 = (-x).toNat by omega]
          exact htinv
        | some k =>
          obtain ⟨hk1, hk2, hk3⟩ :=
            dlogScan_some target inv modulus inv 1 max_val k hscan2
          rw [accSeq_eq inv modulus inv hm0 hinvfix, ← pow_succ',
            show k - 1 + 1 = k by omega] at hk3
          refine ⟨-(k : ℤ), ?_, by omega, by omega, ?_⟩
          · simp only [discrete_log_brute, htfix, hscan, hinv, hscan2]
          · rw [mod_pow, if_neg (show ¬ modulus ≤ 0 by omega),
              if_pos (show -(k : ℤ) < 0 by omega), hinv]
            show Except.ok ((inv ^ (-(-(k : ℤ))).toNat).fmod modulus) = Except.ok target
            rw [show (-(-(k : ℤ))).toNat = k by omega,
              Int.fmod_eq_emod _ (by omega), hk3]
    · -- nonnegative exponent: the forward scan cannot have failed
      exfalso
      rw [if_neg hxneg] at ht2
      simp only [Except.ok.injEq] at ht2
      apply hnone x.toNat (by omega)
      rw [accSeq_eq base modulus 1 hm0 hone, one_mul, ← Int.fmod_eq_emod _ (by omega)]
      exact ht2

/-- Counterexample to claim C4 as stated: `2 ^ 3 ≡ 1 (mod 7)`, so the brute
force search returns the smaller equivalent exponent `0`, not `3`. -/
theorem c4_counterexample :
    mod_pow 2 3 7 = Except.ok 1 ∧
    discrete_log_brute 1 2 7 10 = Except.ok 0 ∧ (0 : ℤ) ≠ 3 :=
  ⟨rfl, rfl, by norm_num⟩

/-- Witness for C4 at concrete inputs. -/
theorem c4_discrete_log_witness :
    ∃ y : ℤ, discrete_log_brute 8 2 11 5 = Except.ok y ∧
      -(5 : ℤ) ≤ y ∧ y ≤ 5 ∧ mod_pow 2 y 11 = Except.ok 8 :=
  c4_discrete_log 2 11 8 3 5 (by norm_num) (by norm_num) (by norm_num) rfl

/-! ## Claims C1 and C9: integer secret sharing -/

theorem polyEval_foldl (c : List ℤ) (x y p : ℤ) :
    (c.foldl (fun (acc : ℤ × ℤ) a => (acc.1 + a * acc.2, acc.2 * x)) (y, p)).1
      = y + p * ∑ k in Finset.range c.length, c.getD k 0 * x ^ k := by
  induction c generalizing y p with
  | nil => simp
  | cons a r ih =>
    rw [List.foldl_cons, ih, List.length_cons, Finset.sum_range_succ']
    simp only [List.getD_cons_succ, List.getD_cons_zero, pow_succ, pow_zero, mul_one,
      ← mul_assoc]
    rw [← Finset.sum_mul]
    ring

theorem polyEval_eq_sum (c : List ℤ) (x : ℤ) :
    polyEval c x = ∑ k in Finset.range c.length, c.getD k 0 * x ^ k := by
  rw [polyEval, polyEval_foldl]
  ring

theorem polyEval_eq_sum_of_le (c : List ℤ) (x : ℤ) (M : ℕ) (h : c.length ≤ M) :
    polyEval c x = ∑ k in Finset.range M, c.getD k 0 * x ^ k := by
  rw [polyEval_eq_sum]
  apply Finset.sum_subset (Finset.range_subset.mpr h)
  intro k _ hk
  rw [List.getD_eq_default _ _ (by simpa using hk), zero_mul]

theorem polyEval_zero (c : List ℤ) : polyEval c 0 = c.getD 0 0 := by
  cases c with
  | nil => simp [polyEval]
  | cons a r =>
    rw [polyEval_eq_sum, List.length_cons, Finset.sum_range_succ']
    simp

theorem getD_range_map {α : Type*} (g : ℕ → α) (N j : ℕ) (d : α) (hj : j < N) :
    ((List.range N).map g).getD j d = g j := by
  rw [List.getD_eq_getElem _ _ (by simpa using hj)]
  simp

theorem getD_map_fst (l : List (ℤ × ℤ)) (j : ℕ) (hj : j < l.length) :
    (l.map Prod.fst).getD j 0 = (l.getD j (0, 0)).1 := by
  rw [List.getD_eq_getElem _ _ (by simpa using hj), List.getD_eq_getElem _ _ hj]
  simp

theorem nodup_getD_ne (xs : List ℤ) (hnd : xs.Nodup) (i j : ℕ)
    (hi : i < xs.length) (hj : j < xs.length) (hij : i ≠ j) :
    xs.getD i 0 ≠ xs.getD j 0 := by
  rw [List.getD_eq_getElem _ _ hi, List.getD_eq_getElem _ _ hj]
  intro h
  exact hij (List.Nodup.getElem_inj_iff hnd |>.mp h)

theorem basisNum_eq (xs : List ℤ) (j : ℕ) :
    basisNum xs j = ∏ m in (Finset.range xs.length).erase j, -(xs.getD m 0) := by
  rw [basisNum, list_range_filter_map_prod (fun m => -(xs.getD m 0)) (fun m => m ≠ j),
    Finset.filter_ne']

theorem basisDen_eq (xs : List ℤ) (j : ℕ) :
    basisDen xs j = ∏ m in (Finset.range xs.length).erase j,
      (xs.getD j 0 - xs.getD m 0) := by
  rw [basisDen, list_range_filter_map_prod
    (fun m => xs.getD j 0 - xs.getD m 0) (fun m => m ≠ j), Finset.filter_ne']

theorem basisDen_ne_zero (xs : List ℤ) (hnd : xs.Nodup) (j : ℕ)
    (hj : j < xs.length) : basisDen xs j ≠ 0 := by
  rw [basisDen_eq]
  rw [Finset.prod_ne_zero_iff]
  intro m hm
  obtain ⟨hmj, hmr⟩ := Finset.mem_erase.mp hm
  rw [sub_ne_zero]
  exact (nodup_getD_ne xs hnd j m hj (by simpa using hmr) (Ne.symm hmj))

theorem reconDen_eq (subset : List (ℤ × ℤ)) :
    reconDen subset = ∏ j in Finset.range subset.length,
      basisDen (subset.map Prod.fst) j := by
  rw [reconDen, list_range_map_prod]

theorem reconDen_ne_zero (subset : List (ℤ × ℤ))
    (hnd : (subset.map Prod.fst).Nodup) : reconDen subset ≠ 0 := by
  rw [reconDen_eq, Finset.prod_ne_zero_iff]
  intro j hj
  exact basisDen_ne_zero _ hnd j (by simpa using hj)

theorem reconNum_eq (subset : List (ℤ × ℤ)) :
    reconNum subset = ∑ j in Finset.range subset.length,
      (subset.getD j (0, 0)).2 * basisNum (subset.map Prod.fst) j
        * ((reconDen subset).fdiv (basisDen (subset.map Prod.fst) j)) := by
  rw [reconNum, list_range_map_sum]

/-- Lagrange interpolation evaluated at zero, in the explicit product form
used by `reconstruct`: for distinct nodes and a polynomial given by its
coefficients, the weighted sum of the values recovers the constant
coefficient. -/
theorem lagrange_eval_zero {F : Type*} [Field F] (N : ℕ) (hN : 0 < N) (v : ℕ → F)
    (hv : Set.InjOn v (Finset.range N)) (b : ℕ → F) :
    ∑ j in Finset.range N, (∑ k in Finset.range N, b k * v j ^ k) *
      ∏ m in (Finset.range N).erase j, (-(v m) / (v j - v m)) = b 0 := by
  classical
  set P : Polynomial F := ∑ k in Finset.range N, Polynomial.C (b k) * Polynomial.X ^ k
    with hP
  have hdeg : P.degree < (Finset.range N).card := by
    rw [Finset.card_range]
    have hPfin : P = ∑ k : Fin N, Polynomial.C (b k.val) * Polynomial.X ^ (k.val) := by
      rw [hP, ← Fin.sum_univ_eq_sum_range
        (fun k => Polynomial.C (b k) * Polynomial.X ^ k) N]
    rw [hPfin]
    exact Polynomial.degree_sum_fin_lt _
  have hinterp := Lagrange.eq_interpolate hv hdeg
  have heval := congrArg (Polynomial.eval 0) hinterp
  have hP0 : P.eval 0 = b 0 := by
    rw [hP, Polynomial.eval_finset_sum]
    rw [Finset.sum_eq_single 0]
    · simp
    · intro k _ hk0
      simp [zero_pow hk0]
    · intro h0
      exact absurd (Finset.mem_range.mpr hN) h0
  have hR : (Lagrange.interpolate (Finset.range N) v fun i => P.eval (v i)).eval 0
      = ∑ j in Finset.range N, (∑ k in Finset.range N, b k * v j ^ k) *
        ∏ m in (Finset.range N).erase j, (-(v m) / (v j - v m)) := by
    rw [Lagrange.interpolate_apply, Polynomial.eval_finset_sum]
    apply Finset.sum_congr rfl
    intro j _
    rw [Polynomial.eval_mul, Polynomial.eval_C]
    congr 1
    · rw [hP, Polynomial.eval_finset_sum]
      apply Finset.sum_congr rfl
      intro k _
      simp
    · rw [Lagrange.basis, Polynomial.eval_prod]
      apply Finset.prod_congr rfl
      intro m _
      rw [Lagrange.basisDivisor, Polynomial.eval_mul, Polynomial.eval_C,
        Polynomial.eval_sub, Polynomial.eval_X, Polynomial.eval_C,
        zero_sub, mul_comm, ← div_eq_mul_inv]
  rw [hP0, hR] at heval
  exact heval.symm

theorem fdiv_cast_of_dvd (D d : ℤ) (hd : d ≠ 0) (hdvd : d ∣ D) :
    ((D.fdiv d : ℤ) : ℚ) = (D : ℚ) / (d : ℚ) := by
  obtain ⟨q, rfl⟩ := hdvd
  rw [Int.mul_fdiv_cancel_left q hd]
  have hdq : (d : ℚ) ≠ 0 := Int.cast_ne_zero.mpr hd
  push_cast
  field_simp

/-- Core exactness of integer-mode Lagrange reconstruction: if every used
share is an evaluation of the integer polynomial with coefficient list `c`
at its x-coordinate, and the x-coordinates are distinct, the accumulated
numerator is exactly `polyEval c 0` times the common denominator. -/
theorem reconstruct_int_core (c : List ℤ) (subset : List (ℤ × ℤ))
    (hne : 0 < subset.length) (hnd : (subset.map Prod.fst).Nodup)
    (hlen : c.length ≤ subset.length)
    (hy : ∀ j < subset.length,
      (subset.getD j (0, 0)).2 = polyEval c (subset.getD j (0, 0)).1) :
    reconNum subset = polyEval c 0 * reconDen subset := by
  set N := subset.length with hN
  set xs := subset.map Prod.fst with hxs
  have hxslen : xs.length = N := by rw [hxs, List.length_map]
  set v : ℕ → ℚ := fun m => (xs.getD m 0 : ℚ) with hv
  have hvinj : Set.InjOn v (Finset.range N) := by
    intro i hi j hj hij
    by_contra hne2
    have hij2 : (xs.getD i 0 : ℚ) = (xs.getD j 0 : ℚ) := by simpa [hv] using hij
    exact nodup_getD_ne xs hnd i j (by rw [hxslen]; simpa using hi)
      (by rw [hxslen]; simpa using hj) hne2 (by exact_mod_cast hij2)
  have hterm : ∀ j ∈ Finset.range N,
      ((subset.getD j (0, 0)).2 : ℚ) * (basisNum xs j : ℚ) *
          (((reconDen subset).fdiv (basisDen xs j) : ℤ) : ℚ)
        = (reconDen subset : ℚ) *
          ((∑ k in Finset.range N, (c.getD k 0 : ℚ) * v j ^ k) *
            ∏ m in (Finset.range N).erase j, (-(v m) / (v j - v m))) := by
    intro j hj
    have hjN : j < N := by simpa using hj
    have hdenj : basisDen xs j ≠ 0 :=
      basisDen_ne_zero xs hnd j (by rw [hxslen]; exact hjN)
    have hdvd : basisDen xs j ∣ reconDen subset := by
      rw [reconDen_eq]
      exact Finset.dvd_prod_of_mem _ (by simpa using hjN)
    have hyj : ((subset.getD j (0, 0)).2 : ℚ) =
        ∑ k in Finset.range N, (c.getD k 0 : ℚ) * v j ^ k := by
      rw [hy j hjN, polyEval_eq_sum_of_le c _ N hlen,
        show (subset.getD j (0, 0)).1 = xs.getD j 0 from (getD_map_fst subset j hjN).symm]
      push_cast
      rfl
    have hratio : (basisNum xs j : ℚ) / (basisDen xs j : ℚ) =
        ∏ m in (Finset.range N).erase j, (-(v m) / (v j - v m)) := by
      rw [basisNum_eq, basisDen_eq, hxslen]
      push_cast
      rw [← Finset.prod_div_distrib]
    rw [fdiv_cast_of_dvd _ _ hdenj hdvd, hyj, ← hratio]
    have hdenjQ : (basisDen xs j : ℚ) ≠ 0 := Int.cast_ne_zero.mpr hdenj
    field_simp
    ring
  have hQ : (reconNum subset : ℚ) = (polyEval c 0 : ℚ) * (reconDen subset : ℚ) := by
    rw [reconNum_eq]
    push_cast
    rw [Finset.sum_congr rfl hterm, ← Finset.mul_sum,
      lagrange_eval_zero N hne v hvinj (fun k => (c.getD k 0 : ℚ)),
      polyEval_zero]
    ring
  exact_mod_cast hQ

theorem except_bind_ok {α β : Type} (a : α) (f : α → Except String β) :
    (Except.ok a >>= f) = f a := rfl

theorem except_bind_ok_dot {α β : Type} (a : α) (f : α → Except String β) :
    (Except.ok a).bind f = f a := rfl

theorem list_mapM_ok {α β : Type*} (f : α → Except String β) (g : α → β)
    (l : List α) (h : ∀ a ∈ l, f a = Except.ok (g a)) :
    l.mapM f = Except.ok (l.map g) := by
  induction l with
  | nil => rfl
  | cons a r ih =>
    rw [List.mapM_cons, h a (by simp), ih (fun x hx => h x (by simp [hx]))]
    rfl

theorem lagrange_basis_ok (subset : List (ℤ × ℤ)) (j : ℕ) (prime : Option ℤ)
    (hnd : (subset.map Prod.fst).Nodup) (hj : j < subset.length) :
    _lagrange_basis subset j prime = (match prime with
      | some p => Except.ok ((basisNum (subset.map Prod.fst) j).fmod p,
          (basisDen (subset.map Prod.fst) j).fmod p)
      | none => Except.ok (basisNum (subset.map Prod.fst) j,
          basisDen (subset.map Prod.fst) j)) := by
  simp only [_lagrange_basis]
  rw [if_neg]
  intro hany
  rw [List.any_eq_true] at hany
  obtain ⟨m, hm, hpm⟩ := hany
  rw [Bool.and_eq_true, bne_iff_ne, beq_iff_eq] at hpm
  obtain ⟨hmj, heq⟩ := hpm
  exact nodup_getD_ne _ hnd m j
    (by rw [List.length_map]; exact List.mem_range.mp hm)
    (by rw [List.length_map]; exact hj) hmj heq

theorem reconstruct_int_eq (shares : List (ℤ × ℤ)) (t : ℕ)
    (hlen : t + 1 ≤ shares.length)
    (hnd : ((shares.take (t + 1)).map Prod.fst).Nodup) :
    reconstruct shares t none =
      if (reconNum (shares.take (t + 1))).fmod (reconDen (shares.take (t + 1))) ≠ 0 then
        Except.ok (pyRound ((reconNum (shares.take (t + 1)) : ℚ) /
          (reconDen (shares.take (t + 1)) : ℚ)))
      else
        Except.ok ((reconNum (shares.take (t + 1))).fdiv
          (reconDen (shares.take (t + 1)))) := by
  rw [reconstruct, if_neg (by omega)]
  set subset := shares.take (t + 1) with hsub
  have hmapM : (List.range subset.length).mapM
        (fun j => _lagrange_basis subset j none)
      = Except.ok ((List.range subset.length).map
          (fun j => (basisNum (subset.map Prod.fst) j,
            basisDen (subset.map Prod.fst) j))) := by
    apply list_mapM_ok
    intro j hj
    exact lagrange_basis_ok subset j none hnd (List.mem_range.mp hj)
  simp only [hmapM, except_bind_ok]
  have hc : (((List.range subset.length).map
        (fun j => (basisNum (subset.map Prod.fst) j,
          basisDen (subset.map Prod.fst) j))).map Prod.snd).prod
      = reconDen subset := by
    rw [List.map_map]
    rfl
  rw [hc]
  have hfold : (List.range subset.length).foldl (fun acc j =>
        acc + (subset.getD j (0, 0)).2 *
          (((List.range subset.length).map
            (fun j => (basisNum (subset.map Prod.fst) j,
              basisDen (subset.map Prod.fst) j))).getD j (0, 0)).1
          * ((reconDen subset).fdiv
            ((((List.range subset.length).map
              (fun j => (basisNum (subset.map Prod.fst) j,
                basisDen (subset.map Prod.fst) j))).getD j (0, 0)).2))) 0
      = reconNum subset := by
    rw [List.foldl_ext _ (fun acc j =>
        acc + (subset.getD j (0, 0)).2 * basisNum (subset.map Prod.fst) j
          * ((reconDen subset).fdiv (basisDen (subset.map Prod.fst) j))) 0
      (by
        intro a j hj
        rw [getD_range_map _ _ _ _ (List.mem_range.mp hj)])]
    rw [list_range_foldl_add, zero_add, ← list_range_map_sum]
    rfl
  rw [hfold]
  rfl

/-- Claim C9: in integer mode, when the supplied shares are `t + 1`
evaluations of a single integer polynomial of degree `t` at pairwise
distinct positive points, the accumulated Lagrange numerator is exactly
divisible by the common denominator, so the rounding fallback is never
taken and the exact-division path returns the constant term `f(0)`. -/
theorem c9_reconstruct_exact (shares : List (ℤ × ℤ)) (t : ℕ) (c : List ℤ)
    (hlen : shares.length = t + 1) (hc : c.length = t + 1)
    (hnd : (shares.map Prod.fst).Nodup)
    (hpos : ∀ p ∈ shares, 0 < p.1)
    (hy : ∀ p ∈ shares, p.2 = polyEval c p.1) :
    (reconNum shares).fmod (reconDen shares) = 0 ∧
    reconstruct shares t none = Except.ok (polyEval c 0) := by
  have htake : shares.take (t + 1) = shares := by
    rw [← hlen]
    exact List.take_length shares
  have hy2 : ∀ j < shares.length,
      (shares.getD j (0, 0)).2 = polyEval c (shares.getD j (0, 0)).1 := by
    intro j hj
    rw [List.getD_eq_getElem _ _ hj]
    exact hy _ (List.getElem_mem hj)
  have hcore := reconstruct_int_core c shares (by omega) hnd (by omega) hy2
  have hD := reconDen_ne_zero shares hnd
  constructor
  · rw [hcore]
    exact Int.mul_fmod_left _ _
  · rw [reconstruct_int_eq shares t (by omega) (by rw [htake]; exact hnd), htake,
      if_neg (by rw [hcore, Int.mul_fmod_left]; simp), hcore,
      Int.mul_fdiv_cancel _ hD]

/-- Witness for C9 at concrete inputs: shares of `f(x) = 5 + 2x` at 1, 2. -/
theorem c9_reconstruct_witness :
    (reconNum [((1 : ℤ), (7 : ℤ)), (2, 9)]).fmod
      (reconDen [((1 : ℤ), (7 : ℤ)), (2, 9)]) = 0 ∧
    reconstruct [((1 : ℤ), (7 : ℤ)), (2, 9)] 1 none =
      Except.ok (polyEval [5, 2] 0) :=
  c9_reconstruct_exact [(1, 7), (2, 9)] 1 [5, 2] (by decide) (by decide)
    (by decide) (by decide) (by decide)

theorem list_foldlM_ok {α β : Type} (f : β → α → Except String β) (g : β → α → β)
    (l : List α) (h : ∀ b : β, ∀ a ∈ l, f b a = Except.ok (g b a)) (init : β) :
    l.foldlM f init = Except.ok (l.foldl g init) := by
  induction l generalizing init with
  | nil => rfl
  | cons a r ih =>
    rw [List.foldlM_cons, h init a (by simp), except_bind_ok]
    exact ih (fun b x hx => h b x (by simp [hx])) (g init a)

theorem reconstruct_mod_eq (shares : List (ℤ × ℤ)) (t : ℕ) (p : ℤ)
    (hlen : t + 1 ≤ shares.length)
    (hnd : ((shares.take (t + 1)).map Prod.fst).Nodup) :
    reconstruct shares t (some p) = Except.ok
      ((List.range (shares.take (t + 1)).length).foldl
        (fun acc j =>
          (acc + (((shares.take (t + 1)).getD j (0, 0)).2 *
              ((basisNum ((shares.take (t + 1)).map Prod.fst) j).fmod p)).fmod p *
            (((basisDen ((shares.take (t + 1)).map Prod.fst) j).fmod p ^
              (p - 2).toNat).fmod p)).fmod p) 0) := by
  rw [reconstruct, if_neg (by omega)]
  apply list_foldlM_ok
  intro b j hj
  rw [lagrange_basis_ok (shares.take (t + 1)) j (some p) hnd (List.mem_range.mp hj)]
  rfl

theorem fmod_cast_zmod (p : ℕ) (hp : 0 < p) (z : ℤ) :
    ((z.fmod (p : ℤ) : ℤ) : ZMod p) = (z : ZMod p) := by
  rw [Int.fmod_eq_emod _ (by positivity)]
  rw [ZMod.intCast_eq_intCast_iff]
  exact Int.emod_emod_of_dvd z dvd_rfl

theorem foldl_fmod_bounds (p : ℤ) (hp : 0 < p) (X : ℕ → ℤ) :
    ∀ (l : List ℕ) (a : ℤ), l ≠ [] →
      0 ≤ l.foldl (fun acc j => (acc + X j).fmod p) a ∧
        l.foldl (fun acc j => (acc + X j).fmod p) a < p := by
  intro l
  induction l with
  | nil => intro a h; exact absurd rfl h
  | cons e r ih =>
    intro a _
    rw [List.foldl_cons]
    rcases eq_or_ne r [] with h | h
    · subst h
      simp only [List.foldl_nil]
      exact ⟨Int.fmod_nonneg' _ hp, Int.fmod_lt_of_pos _ hp⟩
    · exact ih _ h

theorem foldl_fmod_cast (p : ℕ) (hp : 0 < p) (X : ℕ → ℤ) (l : List ℕ) (a : ℤ) :
    ((l.foldl (fun acc j => (acc + X j).fmod (p : ℤ)) a : ℤ) : ZMod p)
      = (a : ZMod p) + (l.map (fun j => ((X j : ℤ) : ZMod p))).sum := by
  induction l generalizing a with
  | nil => simp
  | cons e r ih =>
    rw [List.foldl_cons, ih, List.map_cons, List.sum_cons, fmod_cast_zmod p hp]
    push_cast
    ring

theorem int_eq_of_cast_zmod (p : ℕ) (a b : ℤ) (ha0 : 0 ≤ a) (hap : a < p)
    (hb0 : 0 ≤ b) (hbp : b < p) (h : (a : ZMod p) = (b : ZMod p)) : a = b := by
  rw [ZMod.intCast_eq_intCast_iff'] at h
  rwa [Int.emod_eq_of_lt ha0 hap, Int.emod_eq_of_lt hb0 hbp] at h

theorem zmod_pow_sub_two (p : ℕ) [Fact p.Prime] (a : ZMod p) (ha : a ≠ 0) :
    a ^ (p - 2) = a⁻¹ := by
  have hp2 : 2 ≤ p := (Fact.out : p.Prime).two_le
  have h1 : a * a ^ (p - 2) = 1 := by
    rw [← pow_succ', show p - 2 + 1 = p - 1 by omega]
    exact ZMod.pow_card_sub_one_eq_one ha
  exact (inv_eq_of_mul_eq_one_right h1).symm

/-- Core correctness of modular-mode Lagrange reconstruction: with a prime
modulus, distinct nodes modulo the prime, and shares that are reduced
evaluations of the polynomial, the folded modular sum is `f(0) mod p`. -/
theorem reconstruct_mod_core (p : ℕ) (hp : p.Prime) (c : List ℤ)
    (subset : List (ℤ × ℤ)) (hne : 0 < subset.length)
    (hlen : c.length ≤ subset.length)
    (hdist : ∀ i < subset.length, ∀ j < subset.length, i ≠ j →
      ¬ ((p : ℤ) ∣ ((subset.getD i (0, 0)).1 - (subset.getD j (0, 0)).1)))
    (hy : ∀ j < subset.length, (subset.getD j (0, 0)).2 =
      (polyEval c (subset.getD j (0, 0)).1).fmod p) :
    (List.range subset.length).foldl
      (fun acc j =>
        (acc + ((subset.getD j (0, 0)).2 *
            ((basisNum (subset.map Prod.fst) j).fmod p)).fmod p *
          (((basisDen (subset.map Prod.fst) j).fmod p ^
            ((p : ℤ) - 2).toNat).fmod p)).fmod p) 0
      = (polyEval c 0).fmod p := by
  haveI : Fact p.Prime := ⟨hp⟩
  have hp2 : 2 ≤ p := hp.two_le
  have hpz : (0 : ℤ) < (p : ℤ) := by exact_mod_cast hp.pos
  set N := subset.length with hN
  set xs := subset.map Prod.fst with hxs
  have hxslen : xs.length = N := by rw [hxs, List.length_map]
  set W : ℕ → ℤ := fun j =>
    ((subset.getD j (0, 0)).2 * ((basisNum xs j).fmod p)).fmod p *
      (((basisDen xs j).fmod p ^ ((p : ℤ) - 2).toNat).fmod p) with hW
  have hfold : (List.range N).foldl
      (fun acc j => (acc + W j).fmod p) 0 = (polyEval c 0).fmod p := by
    have hrne : List.range N ≠ [] := by
      simp only [ne_eq, List.range_eq_nil]
      omega
    obtain ⟨hL0, hLp⟩ := foldl_fmod_bounds (p : ℤ) hpz W (List.range N) 0 hrne
    apply int_eq_of_cast_zmod p _ _ hL0 hLp
      (Int.fmod_nonneg' _ hpz) (Int.fmod_lt_of_pos _ hpz)
    rw [foldl_fmod_cast p hp.pos W (List.range N) 0, Int.cast_zero, zero_add,
      list_range_map_sum (fun j => ((W j : ℤ) : ZMod p)) N,
      fmod_cast_zmod p hp.pos]
    set v : ℕ → ZMod p := fun m => ((subset.getD m (0, 0)).1 : ZMod p) with hv
    have hvinj : Set.InjOn v (Finset.range N) := by
      intro i hi j hj hij
      by_contra hne2
      apply hdist i (by simpa using hi) j (by simpa using hj) hne2
      rw [← ZMod.intCast_zmod_eq_zero_iff_dvd, Int.cast_sub, sub_eq_zero]
      exact hij
    have hxsd : ∀ m < N, ((xs.getD m 0 : ℤ) : ZMod p) = v m := by
      intro m hm
      rw [getD_map_fst subset m (by rw [← hN]; exact hm), hv]
    have hdencast : ∀ j < N, ((basisDen xs j : ℤ) : ZMod p) =
        ∏ m in (Finset.range N).erase j, (v j - v m) := by
      intro j hj
      rw [basisDen_eq, hxslen]
      push_cast
      apply Finset.prod_congr rfl
      intro m hm
      obtain ⟨_, hmr⟩ := Finset.mem_erase.mp hm
      rw [hxsd j hj, hxsd m (by simpa using hmr)]
    have hnumcast : ∀ j < N, ((basisNum xs j : ℤ) : ZMod p) =
        ∏ m in (Finset.range N).erase j, (-(v m)) := by
      intro j hj
      rw [basisNum_eq, hxslen]
      push_cast
      apply Finset.prod_congr rfl
      intro m hm
      obtain ⟨_, hmr⟩ := Finset.mem_erase.mp hm
      rw [hxsd m (by simpa using hmr)]
    have hdenne : ∀ j < N, ((basisDen xs j : ℤ) : ZMod p) ≠ 0 := by
      intro j hj
      rw [hdencast j hj]
      rw [Finset.prod_ne_zero_iff]
      intro m hm
      obtain ⟨hmj, hmr⟩ := Finset.mem_erase.mp hm
      rw [sub_ne_zero, hv]
      intro heq
      apply hdist j hj m (by simpa using hmr) (Ne.symm hmj)
      rw [← ZMod.intCast_zmod_eq_zero_iff_dvd, Int.cast_sub, sub_eq_zero]
      exact heq
    have hterm : ∀ j ∈ Finset.range N, ((W j : ℤ) : ZMod p)
        = (∑ k in Finset.range N, (c.getD k 0 : ZMod p) * v j ^ k) *
          ∏ m in (Finset.range N).erase j, (-(v m) / (v j - v m)) := by
      intro j hj
      have hjN : j < N := List.mem_range.mp hj
      have he2 : ((p : ℤ) - 2).toNat = p - 2 := by omega
      rw [hW]
      push_cast
      rw [fmod_cast_zmod p hp.pos, fmod_cast_zmod p hp.pos]
      push_cast
      rw [fmod_cast_zmod p hp.pos, he2]
      have hyc : (((subset.getD j (0, 0)).2 : ℤ) : ZMod p)
          = ∑ k in Finset.range N, (c.getD k 0 : ZMod p) * v j ^ k := by
        rw [hy j hjN, fmod_cast_zmod p hp.pos,
          polyEval_eq_sum_of_le c _ N (by rw [hN] at hlen; exact hlen)]
        push_cast
        rw [hv]
      rw [hyc, hnumcast j hjN, fmod_cast_zmod p hp.pos (basisDen xs j),
        hdencast j hjN,
        zmod_pow_sub_two p _ (by rw [← hdencast j hjN]; exact hdenne j hjN),
        ← Finset.prod_inv_distrib, mul_assoc, ← Finset.prod_mul_distrib]
      congr 1
    rw [Finset.sum_congr rfl hterm,
      lagrange_eval_zero N hne v hvinj (fun k => (c.getD k 0 : ZMod p)),
      polyEval_zero]
  exact hfold

theorem nodup_nodes (M : ℕ) : ((List.range M).map (fun (i : ℕ) => (i : ℤ) + 1)).Nodup := by
  refine List.Nodup.map ?_ (List.nodup_range M)
  intro a b hab
  have hab2 : (a : ℤ) + 1 = (b : ℤ) + 1 := hab
  omega

/-- Claim C1: reconstructing from the first `t + 1` shares inverts sharing,
in integer mode for every choice of the random coefficients, and in modular
mode for a valid prime (a prime larger than the node count, with the secret
already reduced); the concrete scenario `share(12345, n=5, t=2)` is an
instance of the first conjunct (see the witness). -/
theorem c1_share_reconstruct :
    (∀ (s : ℤ) (n t : ℕ) (coeffs : List ℤ), 2 ≤ n → 1 ≤ t → t < n →
      coeffs.length = t →
      (share s n t coeffs none).bind
        (fun sh => reconstruct (sh.take (t + 1)) t none) = Except.ok s) ∧
    (∀ (s : ℤ) (n t : ℕ) (coeffs : List ℤ) (p : ℕ), 2 ≤ n → 1 ≤ t → t < n →
      coeffs.length = t → p.Prime → t + 1 < p → 0 ≤ s → s < p →
      (share s n t coeffs (some (p : ℤ))).bind
        (fun sh => reconstruct (sh.take (t + 1)) t (some (p : ℤ))) = Except.ok s) := by
  constructor
  · intro s n t coeffs hn ht htn hc
    rw [share, if_neg (by omega), if_neg (by omega), if_neg (by omega)]
    rw [except_bind_ok_dot, ← List.map_take, List.take_range,
      Nat.min_eq_left (by omega)]
    show reconstruct ((List.range (t + 1)).map (fun (i : ℕ) =>
      ((i : ℤ) + 1, polyEval (s :: coeffs) ((i : ℤ) + 1)))) t none = Except.ok s
    set subset := (List.range (t + 1)).map (fun (i : ℕ) =>
      ((i : ℤ) + 1, polyEval (s :: coeffs) ((i : ℤ) + 1))) with hsubset
    have hsublen : subset.length = t + 1 := by
      rw [hsubset, List.length_map, List.length_range]
    have hnd : (subset.map Prod.fst).Nodup := by
      rw [hsubset, List.map_map]
      exact nodup_nodes (t + 1)
    have hsubtake : subset.take (t + 1) = subset := by
      rw [← hsublen]
      exact List.take_length subset
    have hgetD : ∀ j < t + 1, subset.getD j (0, 0) =
        ((j : ℤ) + 1, polyEval (s :: coeffs) ((j : ℤ) + 1)) := by
      intro j hj
      rw [hsubset, getD_range_map _ _ _ _ hj]
    have hy2 : ∀ j < subset.length,
        (subset.getD j (0, 0)).2 = polyEval (s :: coeffs) (subset.getD j (0, 0)).1 := by
      intro j hj
      rw [hgetD j (by omega)]
    have hcore := reconstruct_int_core (s :: coeffs) subset (by omega) hnd
      (by simp [hc, hsublen]) hy2
    have hD := reconDen_ne_zero subset hnd
    rw [reconstruct_int_eq subset t (by omega) (by rw [hsubtake]; exact hnd), hsubtake,
      if_neg (by rw [hcore, Int.mul_fmod_left]; simp), hcore,
      Int.mul_fdiv_cancel _ hD, polyEval_zero, List.getD_cons_zero]
  · intro s n t coeffs p hn ht htn hc hp hptn hs0 hsp
    have hpz : (0 : ℤ) < (p : ℤ) := by exact_mod_cast hp.pos
    rw [share, if_neg (by omega), if_neg (by omega), if_neg (by omega)]
    rw [except_bind_ok_dot, ← List.map_take, List.take_range,
      Nat.min_eq_left (by omega)]
    show reconstruct ((List.range (t + 1)).map (fun (i : ℕ) =>
      ((i : ℤ) + 1, (polyEval (s :: coeffs) ((i : ℤ) + 1)).fmod (p : ℤ)))) t
      (some (p : ℤ)) = Except.ok s
    set subset := (List.range (t + 1)).map (fun (i : ℕ) =>
      ((i : ℤ) + 1, (polyEval (s :: coeffs) ((i : ℤ) + 1)).fmod (p : ℤ))) with hsubset
    have hsublen : subset.length = t + 1 := by
      rw [hsubset, List.length_map, List.length_range]
    have hnd : (subset.map Prod.fst).Nodup := by
      rw [hsubset, List.map_map]
      exact nodup_nodes (t + 1)
    have hsubtake : subset.take (t + 1) = subset := by
      rw [← hsublen]
      exact List.take_length subset
    have hgetD : ∀ j < t + 1, subset.getD j (0, 0) =
        ((j : ℤ) + 1, (polyEval (s :: coeffs) ((j : ℤ) + 1)).fmod (p : ℤ)) := by
      intro j hj
      rw [hsubset, getD_range_map _ _ _ _ hj]
    have hdist : ∀ i < subset.length, ∀ j < subset.length, i ≠ j →
        ¬ ((p : ℤ) ∣ ((subset.getD i (0, 0)).1 - (subset.getD j (0, 0)).1)) := by
      intro i hi j hj hij hdvd
      rw [hgetD i (by omega), hgetD j (by omega)] at hdvd
      have hdiff : ((i : ℤ) + 1) - ((j : ℤ) + 1) = (i : ℤ) - j := by ring
      rw [hdiff] at hdvd
      rcases hdvd with ⟨k, hk⟩
      have h1 : -(p : ℤ) < (i : ℤ) - j := by
        rw [hsublen] at hi hj
        omega
      have h2 : (i : ℤ) - j < p := by
        rw [hsublen] at hi hj
        omega
      have h3 : (i : ℤ) - (j : ℤ) ≠ 0 := by
        intro h0
        apply hij
        omega
      rcases lt_trichotomy k 0 with hk0 | hk0 | hk0
      · nlinarith
      · rw [hk0, mul_zero] at hk
        exact h3 hk
      · nlinarith
    have hy2 : ∀ j < subset.length, (subset.getD j (0, 0)).2 =
        (polyEval (s :: coeffs) (subset.getD j (0, 0)).1).fmod (p : ℤ) := by
      intro j hj
      rw [hgetD j (by omega)]
    have hcore := reconstruct_mod_core p hp (s :: coeffs) subset (by omega)
      (by simp [hc, hsublen]) hdist hy2
    rw [reconstruct_mod_eq subset t (p : ℤ) (by omega)
      (by rw [hsubtake]; exact hnd), hsubtake, hcore, polyEval_zero,
      List.getD_cons_zero, Int.fmod_eq_of_lt hs0 hsp]

/-- Witness for C1: concrete scenario A with coefficients `[7, -3]`, plus a
modular instance with prime 11. -/
theorem c1_share_reconstruct_witness :
    (share 12345 5 2 [7, -3] none).bind
      (fun sh => reconstruct (sh.take 3) 2 none) = Except.ok 12345 ∧
    (share 4 5 2 [1, 2] (some ((11 : ℕ) : ℤ))).bind
      (fun sh => reconstruct (sh.take 3) 2 (some ((11 : ℕ) : ℤ))) = Except.ok 4 :=
  ⟨c1_share_reconstruct.1 12345 5 2 [7, -3] (by norm_num) (by norm_num)
      (by norm_num) rfl,
   c1_share_reconstruct.2 4 5 2 [1, 2] 11 (by norm_num) (by norm_num)
      (by norm_num) rfl (by norm_num) (by norm_num) (by norm_num) (by norm_num)⟩

/-! ## Claim C2: pack/unpack round trip -/

theorem encode_lt (v : ℤ) (bw : ℕ) : (v.fmod ((2 : ℤ) ^ bw)).toNat < 2 ^ bw := by
  have hM : (0 : ℤ) < (2 : ℤ) ^ bw := by positivity
  have h1 := Int.fmod_nonneg' v hM
  have h2 := Int.fmod_lt_of_pos v hM
  have hc : ((2 ^ bw : ℕ) : ℤ) = (2 : ℤ) ^ bw := by push_cast; rfl
  omega

theorem decode_encode (v : ℤ) (bw : ℕ) (hbw : 1 ≤ bw)
    (hlo : -(2 ^ (bw - 1) : ℤ) ≤ v) (hhi : v < (2 ^ (bw - 1) : ℤ)) :
    (if 2 ^ (bw - 1) ≤ (v.fmod ((2 : ℤ) ^ bw)).toNat
     then ((v.fmod ((2 : ℤ) ^ bw)).toNat : ℤ) - 2 ^ bw
     else ((v.fmod ((2 : ℤ) ^ bw)).toNat : ℤ)) = v := by
  have hBpos : (0 : ℤ) < 2 ^ (bw - 1) := by positivity
  have hM : (2 : ℤ) ^ bw = 2 * 2 ^ (bw - 1) := by
    rw [← pow_succ']
    congr 1
    omega
  have hMpos : (0 : ℤ) < (2 : ℤ) ^ bw := by positivity
  have hBn : ((2 ^ (bw - 1) : ℕ) : ℤ) = (2 : ℤ) ^ (bw - 1) := by push_cast; rfl
  have hfe : v.fmod ((2 : ℤ) ^ bw) = v % ((2 : ℤ) ^ bw) :=
    Int.fmod_eq_emod _ (le_of_lt hMpos)
  have he : v % ((2 : ℤ) ^ bw) = if 0 ≤ v then v else v + 2 ^ bw := by
    split_ifs with hv
    · exact Int.emod_eq_of_lt hv (by linarith)
    · have h2 : (v + 2 ^ bw) % ((2 : ℤ) ^ bw) = v + 2 ^ bw :=
        Int.emod_eq_of_lt (by linarith) (by linarith)
      have h3 : (v + 2 ^ bw) % ((2 : ℤ) ^ bw) = v % ((2 : ℤ) ^ bw) := by
        rw [show v + (2 : ℤ) ^ bw = v + 2 ^ bw * 1 by ring,
          Int.add_mul_emod_self_left]
      rw [← h3, h2]
  rw [hfe, he]
  split_ifs with hv hc hc <;> omega

theorem pack_fold_spec (l : List (ℤ × ℕ)) : ∀ st tb : ℕ,
    (l.foldl (fun (acc : ℕ × ℕ) vb =>
        ((acc.1 <<< vb.2) ||| (vb.1.fmod ((2 : ℤ) ^ vb.2)).toNat, acc.2 + vb.2))
      (st, tb)).2 = tb + (l.map Prod.snd).sum ∧
    (l.foldl (fun (acc : ℕ × ℕ) vb =>
        ((acc.1 <<< vb.2) ||| (vb.1.fmod ((2 : ℤ) ^ vb.2)).toNat, acc.2 + vb.2))
      (st, tb)).1
      = st * 2 ^ ((l.map Prod.snd).sum) +
        (l.foldl (fun (acc : ℕ × ℕ) vb =>
          ((acc.1 <<< vb.2) ||| (vb.1.fmod ((2 : ℤ) ^ vb.2)).toNat, acc.2 + vb.2))
          (0, 0)).1 ∧
    (l.foldl (fun (acc : ℕ × ℕ) vb =>
        ((acc.1 <<< vb.2) ||| (vb.1.fmod ((2 : ℤ) ^ vb.2)).toNat, acc.2 + vb.2))
      (0, 0)).1 < 2 ^ ((l.map Prod.snd).sum) := by
  induction l with
  | nil => intro st tb; simp
  | cons a r ih =>
    intro st tb
    have hconv : ∀ s : ℕ, (s <<< a.2) ||| (a.1.fmod ((2 : ℤ) ^ a.2)).toNat
        = s * 2 ^ a.2 + (a.1.fmod ((2 : ℤ) ^ a.2)).toNat := by
      intro s
      rw [Nat.shiftLeft_eq, mul_comm s, ← Nat.mul_add_lt_is_or (encode_lt a.1 a.2) s,
        mul_comm]
    have hzero : ((0 : ℕ) <<< a.2) ||| (a.1.fmod ((2 : ℤ) ^ a.2)).toNat
        = (a.1.fmod ((2 : ℤ) ^ a.2)).toNat := by
      rw [hconv 0, zero_mul, zero_add]
    obtain ⟨ih1, ih2, ih3⟩ :=
      ih (st * 2 ^ a.2 + (a.1.fmod ((2 : ℤ) ^ a.2)).toNat) (tb + a.2)
    obtain ⟨_, ih5, _⟩ := ih (a.1.fmod ((2 : ℤ) ^ a.2)).toNat a.2
    have henc := encode_lt a.1 a.2
    refine ⟨?_, ?_, ?_⟩
    · rw [List.foldl_cons]
      simp only [hconv]
      rw [ih1, List.map_cons, List.sum_cons]
      omega
    · rw [List.foldl_cons, List.foldl_cons]
      simp only [hconv, zero_mul, zero_add]
      rw [ih2, ih5, List.map_cons, List.sum_cons, pow_add]
      ring
    · rw [List.foldl_cons]
      simp only [hconv, zero_mul, zero_add]
      rw [ih5, List.map_cons, List.sum_cons, pow_add]
      calc (a.1.fmod ((2 : ℤ) ^ a.2)).toNat * 2 ^ (r.map Prod.snd).sum +
            (r.foldl (fun (acc : ℕ × ℕ) vb =>
              ((acc.1 <<< vb.2) ||| (vb.1.fmod ((2 : ℤ) ^ vb.2)).toNat,
                acc.2 + vb.2)) (0, 0)).1
          < (a.1.fmod ((2 : ℤ) ^ a.2)).toNat * 2 ^ (r.map Prod.snd).sum +
            2 ^ (r.map Prod.snd).sum := by omega
        _ = ((a.1.fmod ((2 : ℤ) ^ a.2)).toNat + 1) * 2 ^ (r.map Prod.snd).sum := by
            ring
        _ ≤ 2 ^ a.2 * 2 ^ (r.map Prod.snd).sum := by
            apply Nat.mul_le_mul_right
            omega

theorem chunks_recompose (B : ℕ) (hB : 0 < B) : ∀ (nc x : ℕ), x < B ^ nc →
    ((List.range nc).map (fun idx => x / B ^ (nc - 1 - idx) % B)).foldl
      (fun s c => s * B + c) 0 = x := by
  intro nc
  induction nc with
  | zero =>
    intro x hx
    simp at hx
    simp [hx]
  | succ nc ih =>
    intro x hx
    rw [List.range_succ, List.map_append, List.foldl_append]
    have hmap : (List.range nc).map (fun idx => x / B ^ (nc + 1 - 1 - idx) % B)
        = (List.range nc).map (fun idx => (x / B) / B ^ (nc - 1 - idx) % B) := by
      apply List.map_congr_left
      intro idx hidx
      have hlt : idx < nc := List.mem_range.mp hidx
      rw [show nc + 1 - 1 - idx = (nc - 1 - idx) + 1 by omega, pow_succ',
        Nat.div_div_eq_div_mul, mul_comm B, ← Nat.div_div_eq_div_mul]
    rw [hmap, ih (x / B) (Nat.div_lt_of_lt_mul (by rw [← pow_succ']; exact hx))]
    simp only [List.map_cons, List.map_nil, List.foldl_cons, List.foldl_nil]
    rw [show nc + 1 - 1 - nc = 0 by omega, pow_zero, Nat.div_one, mul_comm,
      Nat.div_add_mod]

theorem getD_append_left {α : Type*} (l l2 : List α) (i : ℕ) (d : α)
    (h : i < l.length) : (l ++ l2).getD i d = l.getD i d := by
  rw [List.getD_eq_getElem _ _ (by simp; omega), List.getD_eq_getElem _ _ h]
  exact List.getElem_append_left h

theorem getD_concat_length {α : Type*} (l : List α) (a : α) (d : α) :
    (l ++ [a]).getD l.length d = a := by
  rw [List.getD_eq_getElem _ _ (by simp)]
  exact List.getElem_concat_length l a _ rfl (by simp)

theorem unpack_fold_spec (bws0 : List ℕ) (vs : List ℤ) :
    ∀ (bws : List ℕ) (tail : List ℤ),
      vs.length = bws.length →
      (∀ i, i < vs.length → bws0.getD i 0 = bws.getD i 0) →
      (∀ i, i < vs.length → 1 ≤ bws.getD i 0 ∧
        -(2 ^ (bws.getD i 0 - 1) : ℤ) ≤ vs.getD i 0 ∧
        vs.getD i 0 < (2 ^ (bws.getD i 0 - 1) : ℤ)) →
      (List.range vs.length).foldl
        (fun (acc : List ℤ × ℕ) k =>
          let i := vs.length - 1 - k
          let bw := bws0.getD i 0
          let encoded : ℕ := acc.2 &&& ((1 <<< bw) - 1)
          let v : ℤ := if 2 ^ (bw - 1) ≤ encoded then (encoded : ℤ) - 2 ^ bw
            else (encoded : ℤ)
          (v :: acc.1, acc.2 >>> bw))
        (tail, ((vs.zip bws).foldl (fun (acc : ℕ × ℕ) vb =>
          ((acc.1 <<< vb.2) ||| (vb.1.fmod ((2 : ℤ) ^ vb.2)).toNat, acc.2 + vb.2))
          (0, 0)).1)
        = (vs ++ tail, 0) := by
  induction vs using List.reverseRecOn with
  | nil =>
    intro bws tail _ _ _
    simp
  | append_singleton vs2 v ih =>
    intro bws tail hlen hpre hrange
    rcases bws.eq_nil_or_concat with hb | ⟨bws2, bw, hb⟩
    · rw [hb] at hlen
      simp at hlen
    rw [List.concat_eq_append] at hb
    subst hb
    have hlen2 : vs2.length = bws2.length := by
      simp at hlen
      omega
    have hn : (vs2 ++ [v]).length = vs2.length + 1 := by simp
    -- the packed stream splits into the stream of the first n-1 fields and
    -- the two's-complement code of the last one
    have hzip : (vs2 ++ [v]).zip (bws2 ++ [bw]) = vs2.zip bws2 ++ [(v, bw)] :=
      List.zip_append hlen2
    set e : ℕ := (v.fmod ((2 : ℤ) ^ bw)).toNat with he
    set ZL : ℕ := ((vs2.zip bws2).foldl (fun (acc : ℕ × ℕ) vb =>
      ((acc.1 <<< vb.2) ||| (vb.1.fmod ((2 : ℤ) ^ vb.2)).toNat, acc.2 + vb.2))
      (0, 0)).1 with hZL
    have hZ : (((vs2 ++ [v]).zip (bws2 ++ [bw])).foldl (fun (acc : ℕ × ℕ) vb =>
        ((acc.1 <<< vb.2) ||| (vb.1.fmod ((2 : ℤ) ^ vb.2)).toNat, acc.2 + vb.2))
        (0, 0)).1 = ZL * 2 ^ bw + e := by
      rw [hzip, List.foldl_append]
      simp only [List.foldl_cons, List.foldl_nil]
      rw [Nat.shiftLeft_eq, mul_comm _ (2 ^ bw),
        ← Nat.mul_add_lt_is_or (encode_lt v bw), mul_comm]
    have henc : e < 2 ^ bw := encode_lt v bw
    have hbwlast : (bws2 ++ [bw]).getD vs2.length 0 = bw := by
      rw [hlen2]
      exact getD_concat_length bws2 bw 0
    have hvlast : (vs2 ++ [v]).getD vs2.length 0 = v := getD_concat_length vs2 v 0
    rw [hn, List.range_succ_eq_map, List.foldl_cons, List.foldl_map]
    -- evaluate the first step (field index n-1, the last value)
    have hstep : (let i := vs2.length + 1 - 1 - 0
          let bw2 := bws0.getD i 0
          let encoded : ℕ := (tail, ZL * 2 ^ bw + e).2 &&& ((1 <<< bw2) - 1)
          let v2 : ℤ := if 2 ^ (bw2 - 1) ≤ encoded then (encoded : ℤ) - 2 ^ bw2
            else (encoded : ℤ)
          (v2 :: (tail, ZL * 2 ^ bw + e).1, (tail, ZL * 2 ^ bw + e).2 >>> bw2))
        = (v :: tail, ZL) := by
      show (fun (acc : List ℤ × ℕ) k =>
          let i := vs2.length + 1 - 1 - k
          let bw2 := bws0.getD i 0
          let encoded : ℕ := acc.2 &&& ((1 <<< bw2) - 1)
          let v2 : ℤ := if 2 ^ (bw2 - 1) ≤ encoded then (encoded : ℤ) - 2 ^ bw2
            else (encoded : ℤ)
          (v2 :: acc.1, acc.2 >>> bw2)) (tail, ZL * 2 ^ bw + e) 0
        = (v :: tail, ZL)
      have hi0 : vs2.length + 1 - 1 - 0 = vs2.length := by omega
      have hbw0 : bws0.getD vs2.length 0 = bw := by
        rw [hpre vs2.length (by simp), hbwlast]
      simp only [hi0, hbw0]
      have hmask : (ZL * 2 ^ bw + e) &&& ((1 <<< bw) - 1) = e := by
        rw [Nat.shiftLeft_eq, one_mul, Nat.and_pow_two_sub_one_eq_mod,
          mul_comm ZL, Nat.mul_add_mod, Nat.mod_eq_of_lt henc]
      have hshift : (ZL * 2 ^ bw + e) >>> bw = ZL := by
        rw [Nat.shiftRight_eq_div_pow, mul_comm ZL, Nat.mul_add_div (by positivity),
          Nat.div_eq_of_lt henc, add_zero]
      simp only [hmask, hshift]
      obtain ⟨hr1, hr2, hr3⟩ := hrange vs2.length (by simp)
      rw [hbwlast] at hr1
      rw [hbwlast, hvlast] at hr2 hr3
      have hdec := decode_encode v bw hr1 hr2 hr3
      rw [← he] at hdec
      rw [hdec]
    rw [hZ, hstep]
    -- remaining steps: the same fold on the shorter lists
    have hfun : ∀ (st : List ℤ × ℕ), ∀ k ∈ List.range vs2.length,
        ((fun (x : List ℤ × ℕ) (y : ℕ) =>
          let i := vs2.length + 1 - 1 - Nat.succ y
          let bw2 := bws0.getD i 0
          let encoded : ℕ := x.2 &&& ((1 <<< bw2) - 1)
          let v2 : ℤ := if 2 ^ (bw2 - 1) ≤ encoded then (encoded : ℤ) - 2 ^ bw2
            else (encoded : ℤ)
          (v2 :: x.1, x.2 >>> bw2)) st k)
        = ((fun (acc : List ℤ × ℕ) k =>
          let i := vs2.length - 1 - k
          let bw2 := bws0.getD i 0
          let encoded : ℕ := acc.2 &&& ((1 <<< bw2) - 1)
          let v2 : ℤ := if 2 ^ (bw2 - 1) ≤ encoded then (encoded : ℤ) - 2 ^ bw2
            else (encoded : ℤ)
          (v2 :: acc.1, acc.2 >>> bw2)) st k) := by
      intro st k _
      simp only
      rw [show vs2.length + 1 - 1 - Nat.succ k = vs2.length - 1 - k by omega]
    rw [List.foldl_ext _ _ _ hfun]
    rw [hZL]
    have hpre2 : ∀ i, i < vs2.length → bws0.getD i 0 = bws2.getD i 0 := by
      intro i hi
      rw [hpre i (by simp; omega), getD_append_left bws2 [bw] i 0 (by omega)]
    have hrange2 : ∀ i, i < vs2.length → 1 ≤ bws2.getD i 0 ∧
        -(2 ^ (bws2.getD i 0 - 1) : ℤ) ≤ vs2.getD i 0 ∧
        vs2.getD i 0 < (2 ^ (bws2.getD i 0 - 1) : ℤ) := by
      intro i hi
      have := hrange i (by simp; omega)
      rwa [getD_append_left bws2 [bw] i 0 (by omega),
        getD_append_left vs2 [v] i 0 hi] at this
    rw [ih bws2 (v :: tail) hlen2 hpre2 hrange2]
    simp

theorem chunk_roundtrip (Z S cb nc : ℕ) (hcb : 0 < cb) (hS : 0 < S)
    (hZ : Z < 2 ^ S) (hnc : nc = (S + cb - 1) / cb) :
    0 < nc ∧ S ≤ nc * cb ∧
    (((List.range nc).map (fun idx =>
      ((Z <<< (nc * cb - S)) >>> ((nc - 1 - idx) * cb)) &&& ((1 <<< cb) - 1))).foldl
      (fun s c => (s <<< cb) ||| c) 0) = Z <<< (nc * cb - S) := by
  have hdm := Nat.div_add_mod (S + cb - 1) cb
  have hmlt := Nat.mod_lt (S + cb - 1) hcb
  have hnc1 : 0 < nc := by
    rw [hnc]
    exact (Nat.one_le_div_iff hcb).mpr (by omega)
  have hScb : S ≤ nc * cb := by
    rw [hnc, mul_comm]
    omega
  have hpadded : Z <<< (nc * cb - S) < 2 ^ (nc * cb) := by
    rw [Nat.shiftLeft_eq]
    calc Z * 2 ^ (nc * cb - S) < 2 ^ S * 2 ^ (nc * cb - S) :=
          Nat.mul_lt_mul_of_pos_right hZ (by positivity)
      _ = 2 ^ (nc * cb) := by rw [← pow_add]; congr 1; omega
  refine ⟨hnc1, hScb, ?_⟩
  have hmap : (List.range nc).map (fun idx =>
      ((Z <<< (nc * cb - S)) >>> ((nc - 1 - idx) * cb)) &&& ((1 <<< cb) - 1))
      = (List.range nc).map (fun idx =>
        (Z <<< (nc * cb - S)) / (2 ^ cb) ^ (nc - 1 - idx) % 2 ^ cb) := by
    apply List.map_congr_left
    intro idx _
    rw [Nat.shiftRight_eq_div_pow, Nat.shiftLeft_eq 1 cb, one_mul,
      Nat.and_pow_two_sub_one_eq_mod, mul_comm (nc - 1 - idx) cb, pow_mul]
  rw [hmap]
  have hfold : ∀ (L : List ℕ), (∀ c ∈ L, c < 2 ^ cb) →
      L.foldl (fun s c => (s <<< cb) ||| c) 0
        = L.foldl (fun s c => s * 2 ^ cb + c) 0 := by
    intro L hL
    apply List.foldl_ext
    intro s c hc
    rw [Nat.shiftLeft_eq, mul_comm s, ← Nat.mul_add_lt_is_or (hL c hc) s, mul_comm]
  rw [hfold _ (by
    intro c hc
    obtain ⟨idx, _, hceq⟩ := List.mem_map.mp hc
    rw [← hceq]
    exact Nat.mod_lt _ (by positivity))]
  have hplt : Z <<< (nc * cb - S) < (2 ^ cb) ^ nc := by
    rw [← pow_mul, mul_comm cb nc]
    exact hpadded
  exact chunks_recompose (2 ^ cb) (by positivity) nc (Z <<< (nc * cb - S)) hplt

/-- **C2.** Packing a non-empty vector whose entries fit the two's-complement
range of their bit widths, with a chunk width at least every bit width, then
unpacking with the same widths and the original length, recovers the vector
exactly; concretely, packing `[3, -1]` with widths `[4, 4]` into 8-bit chunks
gives the single chunk `63`, which unpacks back to `[3, -1]`. -/
theorem c2_pack_unpack (values : List ℤ) (bit_widths : List ℕ) (chunk_bits : ℕ)
    (cs : List ℕ)
    (hne : values ≠ [])
    (hlen : values.length = bit_widths.length)
    (hrange : ∀ i, i < values.length → 1 ≤ bit_widths.getD i 0 ∧
      -(2 ^ (bit_widths.getD i 0 - 1) : ℤ) ≤ values.getD i 0 ∧
      values.getD i 0 < (2 ^ (bit_widths.getD i 0 - 1) : ℤ))
    (hcb : ∀ i, i < values.length → bit_widths.getD i 0 ≤ chunk_bits)
    (hpack : pack_vector values bit_widths chunk_bits = Except.ok cs) :
    unpack_vector cs bit_widths chunk_bits values.length = Except.ok values ∧
    pack_vector [3, -1] [4, 4] 8 = Except.ok [63] ∧
    unpack_vector [63] [4, 4] 8 2 = Except.ok [3, -1] := by
  refine ⟨?_, rfl, rfl⟩
  have hlen0 : 0 < values.length := List.length_pos.mpr hne
  have hcb0 : 0 < chunk_bits := le_trans (hrange 0 hlen0).1 (hcb 0 hlen0)
  have hbne : bit_widths ≠ [] := by
    intro h
    rw [h] at hlen
    simp only [List.length_nil] at hlen
    omega
  obtain ⟨b0, rest, hb⟩ := List.exists_cons_of_ne_nil hbne
  have hS0 : 0 < bit_widths.sum := by
    have h1 := (hrange 0 hlen0).1
    rw [hb] at h1 ⊢
    simp only [List.getD_cons_zero] at h1
    simp only [List.sum_cons]
    omega
  obtain ⟨hf2, -, hf1lt⟩ := pack_fold_spec (values.zip bit_widths) 0 0
  have hsnd : (values.zip bit_widths).map Prod.snd = bit_widths :=
    List.map_snd_zip values bit_widths (le_of_eq hlen.symm)
  rw [hsnd] at hf2 hf1lt
  rw [zero_add] at hf2
  simp only [pack_vector, if_neg (not_not_intro hlen)] at hpack
  rw [Except.ok.injEq] at hpack
  subst hpack
  rw [hf2]
  obtain ⟨hnc1, hScb, hchunks⟩ := chunk_roundtrip
    ((values.zip bit_widths).foldl (fun (acc : ℕ × ℕ) vb =>
      ((acc.1 <<< vb.2) ||| (vb.1.fmod ((2 : ℤ) ^ vb.2)).toNat, acc.2 + vb.2))
      (0, 0)).1
    bit_widths.sum chunk_bits ((bit_widths.sum + chunk_bits - 1) / chunk_bits)
    hcb0 hS0 hf1lt rfl
  have hempty : ((List.range ((bit_widths.sum + chunk_bits - 1) / chunk_bits)).map
      (fun idx =>
        ((((values.zip bit_widths).foldl (fun (acc : ℕ × ℕ) vb =>
          ((acc.1 <<< vb.2) ||| (vb.1.fmod ((2 : ℤ) ^ vb.2)).toNat, acc.2 + vb.2))
          (0, 0)).1 <<<
            ((bit_widths.sum + chunk_bits - 1) / chunk_bits * chunk_bits -
              bit_widths.sum)) >>>
          (((bit_widths.sum + chunk_bits - 1) / chunk_bits - 1 - idx) *
            chunk_bits)) &&& ((1 <<< chunk_bits) - 1))).isEmpty = false := by
    simp only [List.isEmpty_eq_false, ne_eq, List.map_eq_nil_iff, List.range_eq_nil]
    omega
  rw [unpack_vector]
  rw [hempty]
  simp only [Bool.false_eq_true, if_false]
  rw [if_pos hlen0]
  rw [if_neg (by omega : ¬values.length = 0)]
  rw [hchunks, List.length_map, List.length_range]
  have htb : (bit_widths.take values.length).foldl (· + ·) 0 = bit_widths.sum := by
    rw [hlen, List.take_length, ← List.sum_eq_foldl]
  rw [htb]
  have hsr : ∀ a p : ℕ, (a <<< p) >>> p = a := by
    intro a p
    rw [Nat.shiftLeft_eq, Nat.shiftRight_eq_div_pow,
      Nat.mul_div_cancel _ (by positivity)]
  rw [hsr]
  rw [unpack_fold_spec bit_widths values bit_widths [] hlen (fun i _ => rfl) hrange]
  simp

/-- Witness for C2 at the concrete scenario values. -/
theorem c2_pack_unpack_witness :
    unpack_vector [63] [4, 4] 8 2 = Except.ok [3, -1] ∧
    pack_vector [3, -1] [4, 4] 8 = Except.ok [63] ∧
    unpack_vector [63] [4, 4] 8 2 = Except.ok [3, -1] :=
  c2_pack_unpack [3, -1] [4, 4] 8 [63] (by decide) rfl (by decide) (by decide) rfl

theorem filter_mem_length (n : ℕ) (L : List ℕ) (hnd : L.Nodup)
    (hsub : ∀ x ∈ L, x < n) :
    ((List.range n).filter (fun p => decide (p ∈ L))).length = L.length := by
  have h1 : ((List.range n).filter (fun p => decide (p ∈ L))).Nodup :=
    (List.nodup_range n).filter _
  have h2 : ((List.range n).filter (fun p => decide (p ∈ L))).toFinset
      = L.toFinset := by
    ext x
    simp only [List.mem_toFinset, List.mem_filter, List.mem_range,
      decide_eq_true_eq]
    exact ⟨fun h => h.2, fun h => ⟨hsub x h, h⟩⟩
  calc ((List.range n).filter (fun p => decide (p ∈ L))).length
      = ((List.range n).filter (fun p => decide (p ∈ L))).toFinset.card :=
        (List.toFinset_card_of_nodup h1).symm
    _ = L.toFinset.card := by rw [h2]
    _ = L.length := List.toFinset_card_of_nodup hnd

theorem countP_eq_mem (n : ℕ) (g : ℕ → Bool) (L : List ℕ) (hnd : L.Nodup)
    (hsub : ∀ x ∈ L, x < n) (hg : ∀ p, p < n → g p = decide (p ∈ L)) :
    (List.range n).countP g = L.length := by
  have hc : (List.range n).countP g
      = (List.range n).countP (fun p => decide (p ∈ L)) := by
    apply List.countP_congr
    intro x hx
    rw [hg x (List.mem_range.mp hx)]
  rw [hc, List.countP_eq_length_filter]
  exact filter_mem_length n L hnd hsub

theorem count_map_range (n : ℕ) (f : ℕ → ℤ) (z : ℤ) :
    ((List.range n).map f).count z = (List.range n).countP (fun p => f p == z) := by
  rw [List.count_eq_countP, List.countP_map]
  rfl

theorem adaptive_scenarioB :
    adaptive_precision_map [9/10, 1/10, 1/2, 1/20, 7/10] [0, 4, 2, 1, 3] (1/5)
      24 16 8 = Except.ok [24, 8, 16, 8, 16] := by
  have h1 : (Int.toNat ⌈((([9/10, 1/10, 1/2, 1/20, 7/10] : List ℚ).length : ℚ))
      * (1/5)⌉) = 1 := by
    norm_num
  have h2 : (Int.toNat ⌈((([9/10, 1/10, 1/2, 1/20, 7/10] : List ℚ).length : ℚ))
      * (3/10)⌉) = 2 := by
    have hc : (⌈(3 / 2 : ℚ)⌉ : ℤ) = 2 := by
      rw [Int.ceil_eq_iff] <;> norm_num
    norm_num [hc]
    rfl
  simp only [adaptive_precision_map, h1, h2]
  norm_num
  decide

theorem pairwiseB : List.Pairwise (fun a b =>
    |([9/10, 1/10, 1/2, 1/20, 7/10] : List ℚ).getD b 0|
      ≤ |([9/10, 1/10, 1/2, 1/20, 7/10] : List ℚ).getD a 0|) [0, 4, 2, 1, 3] := by
  norm_num [List.pairwise_cons, List.getD_cons_succ, List.getD_cons_zero,
    abs_of_nonneg]

/-- **C5.** For a non-empty importance list and `k_ratio` in `(0,1)`, with
`ranked` any argsort of the negated absolute importances,
`adaptive_precision_map` returns a list of the input length whose entries all
lie in `{high_bits, mid_bits, low_bits}`; when the three tier values are
distinct, exactly `⌈n·k_ratio⌉` entries (at the ranked, largest-|importance|
positions) are `high_bits`, the next `⌈n·0.3⌉` ranked positions (clipped to
`n`) are `mid_bits`, and the rest are `low_bits`; scenario B is included
verbatim. -/
theorem c5_adaptive_precision (importance : List ℚ) (ranked : List ℕ)
    (k_ratio : ℚ) (high_bits mid_bits low_bits : ℤ) (bws : List ℤ) (tc me : ℕ)
    (hrank : argsortSpec importance ranked)
    (hk : 0 < k_ratio ∧ k_ratio < 1)
    (hne : importance ≠ [])
    (hdist : high_bits ≠ mid_bits ∧ high_bits ≠ low_bits ∧ mid_bits ≠ low_bits)
    (htc : tc = Int.toNat ⌈(importance.length : ℚ) * k_ratio⌉)
    (hme : me = min (tc + Int.toNat ⌈(importance.length : ℚ) * (3 / 10)⌉)
      importance.length)
    (hmap : adaptive_precision_map importance ranked k_ratio high_bits mid_bits
      low_bits = Except.ok bws) :
    bws.length = importance.length ∧
    (∀ p, p < importance.length →
      bws.getD p 0 = high_bits ∨ bws.getD p 0 = mid_bits ∨
        bws.getD p 0 = low_bits) ∧
    bws.count high_bits = tc ∧
    bws.count mid_bits = me - tc ∧
    bws.count low_bits = importance.length - me ∧
    (∀ j, j < tc → bws.getD (ranked.getD j 0) 0 = high_bits) ∧
    (∀ j, tc ≤ j → j < me → bws.getD (ranked.getD j 0) 0 = mid_bits) ∧
    (∀ j, me ≤ j → j < ranked.length → bws.getD (ranked.getD j 0) 0 = low_bits) ∧
    (∀ a ∈ ranked.take tc, ∀ b ∈ ranked.drop tc,
      |importance.getD b 0| ≤ |importance.getD a 0|) ∧
    adaptive_precision_map [9/10, 1/10, 1/2, 1/20, 7/10] [0, 4, 2, 1, 3] (1/5)
      24 16 8 = Except.ok [24, 8, 16, 8, 16] := by
  obtain ⟨hperm, hpair⟩ := hrank
  obtain ⟨hd1, hd2, hd3⟩ := hdist
  have hn0 : 0 < importance.length := List.length_pos.mpr hne
  have hrlen : ranked.length = importance.length := by
    rw [hperm.length_eq, List.length_range]
  have hrnd : ranked.Nodup := hperm.nodup_iff.mpr (List.nodup_range _)
  have hrmem : ∀ x ∈ ranked, x < importance.length := by
    intro x hx
    simpa using hperm.subset hx
  have hcpos1 : (0 : ℤ) < ⌈(importance.length : ℚ) * k_ratio⌉ :=
    Int.ceil_pos.mpr (mul_pos (by exact_mod_cast hn0) hk.1)
  have hcpos2 : (0 : ℤ) < ⌈(importance.length : ℚ) * (3 / 10)⌉ :=
    Int.ceil_pos.mpr (mul_pos (by exact_mod_cast hn0) (by norm_num))
  have htcle : tc ≤ importance.length := by
    have hle : ⌈(importance.length : ℚ) * k_ratio⌉ ≤ (importance.length : ℤ) := by
      rw [Int.ceil_le]
      push_cast
      exact mul_le_of_le_one_right (by positivity) (le_of_lt hk.2)
    rw [htc]
    omega
  have hmele : me ≤ importance.length := by rw [hme]; omega
  have htcme : tc ≤ me := by rw [hme]; omega
  simp only [adaptive_precision_map] at hmap
  rw [if_neg (by omega : ¬importance.length = 0),
    if_neg (not_not_intro hk)] at hmap
  have hmax1 : max 1 (Int.toNat ⌈(importance.length : ℚ) * k_ratio⌉) = tc := by
    rw [htc]
    omega
  have hmax2 : max 1 (Int.toNat ⌈(importance.length : ℚ) * (3 / 10)⌉)
      = Int.toNat ⌈(importance.length : ℚ) * (3 / 10)⌉ := by omega
  rw [hmax1, hmax2, ← hme] at hmap
  rw [Except.ok.injEq] at hmap
  subst hmap
  -- tier index segments
  have hTnd : (ranked.take tc).Nodup := (List.take_sublist tc ranked).nodup hrnd
  have hTsub : ∀ x ∈ ranked.take tc, x < importance.length :=
    fun x hx => hrmem x (List.mem_of_mem_take hx)
  have hTlen : (ranked.take tc).length = tc := by
    rw [List.length_take, hrlen]
    omega
  have hMnd : ((ranked.drop tc).take (me - tc)).Nodup :=
    ((List.take_sublist _ _).trans (List.drop_sublist _ _)).nodup hrnd
  have hMsub : ∀ x ∈ (ranked.drop tc).take (me - tc), x < importance.length :=
    fun x hx => hrmem x (List.mem_of_mem_drop (List.mem_of_mem_take hx))
  have hMlen : ((ranked.drop tc).take (me - tc)).length = me - tc := by
    rw [List.length_take, List.length_drop, hrlen]
    omega
  have hTM : ranked.take tc ++ (ranked.drop tc).take (me - tc)
      = ranked.take me := by
    rw [← List.take_add]
    congr 1
    omega
  have hTMnd : (ranked.take me).Nodup := (List.take_sublist me ranked).nodup hrnd
  have hTMsub : ∀ x ∈ ranked.take me, x < importance.length :=
    fun x hx => hrmem x (List.mem_of_mem_take hx)
  have hTMlen : (ranked.take me).length = me := by
    rw [List.length_take, hrlen]
    omega
  have hdisj : (ranked.take tc).Disjoint ((ranked.drop tc).take (me - tc)) := by
    have h := hTMnd
    rw [← hTM] at h
    exact (List.nodup_append.mp h).2.2
  refine ⟨by simp, ?_, ?_, ?_, ?_, ?_, ?_, ?_, ?_, adaptive_scenarioB⟩
  -- every entry is one of the three tiers
  · intro p hp
    rw [getD_range_map _ _ _ _ hp]
    by_cases h1 : p ∈ ranked.take tc
    · rw [if_pos h1]
      exact Or.inl rfl
    · by_cases h2 : p ∈ (ranked.drop tc).take (me - tc)
      · rw [if_neg h1, if_pos h2]
        exact Or.inr (Or.inl rfl)
      · rw [if_neg h1, if_neg h2]
        exact Or.inr (Or.inr rfl)
  -- high tier count
  · rw [count_map_range]
    refine Eq.trans (countP_eq_mem _ _ (ranked.take tc) hTnd hTsub ?_) hTlen
    intro p hp
    by_cases h1 : p ∈ ranked.take tc
    · simp [h1]
    · by_cases h2 : p ∈ (ranked.drop tc).take (me - tc)
      · simp [h1, h2, Ne.symm hd1]
      · simp [h1, h2, Ne.symm hd2]
  -- mid tier count
  · rw [count_map_range]
    refine Eq.trans
      (countP_eq_mem _ _ ((ranked.drop tc).take (me - tc)) hMnd hMsub ?_) hMlen
    intro p hp
    by_cases h1 : p ∈ ranked.take tc
    · rw [if_pos h1, beq_eq_false_iff_ne.mpr hd1,
        decide_eq_false (hdisj h1)]
    · by_cases h2 : p ∈ (ranked.drop tc).take (me - tc)
      · simp [h1, h2]
      · simp [h1, h2, Ne.symm hd3]
  -- low tier count
  · rw [count_map_range]
    have hq : (List.range importance.length).countP
        (fun p => decide (p ∈ ranked.take me)) = me :=
      Eq.trans (countP_eq_mem _ _ (ranked.take me) hTMnd hTMsub
        (fun p _ => rfl)) hTMlen
    have htot : (List.range importance.length).length
        = (List.range importance.length).countP
            (fun p => decide (p ∈ ranked.take me))
          + (List.range importance.length).countP
            (fun p => decide ¬(decide (p ∈ ranked.take me) = true)) :=
      List.length_eq_countP_add_countP _ _
    rw [List.length_range, hq] at htot
    have hfin : (List.range importance.length).countP
        (fun p => decide ¬(decide (p ∈ ranked.take me) = true))
        = importance.length - me := by omega
    refine Eq.trans (List.countP_congr ?_) hfin
    intro x hx
    by_cases h1 : x ∈ ranked.take tc
    · have hx2 : x ∈ ranked.take me := by
        rw [← hTM]
        exact List.mem_append_left _ h1
      simp [h1, hx2, hd2]
    · by_cases h2 : x ∈ (ranked.drop tc).take (me - tc)
      · have hx2 : x ∈ ranked.take me := by
          rw [← hTM]
          exact List.mem_append_right _ h2
        simp [h1, h2, hx2, hd3]
      · have hx2 : x ∉ ranked.take me := by
          rw [← hTM]
          simp [h1, h2]
        simp [h1, h2, hx2]
  -- positions of the high tier
  · intro j hj
    have hjr : j < ranked.length := by omega
    have hTj : j < (ranked.take tc).length := by
      rw [hTlen]
      omega
    have hmemT : ranked.getD j 0 ∈ ranked.take tc := by
      rw [List.getD_eq_getElem _ _ hjr, ← List.getElem_take ranked]
      exact List.getElem_mem hTj
    have hplt : ranked.getD j 0 < importance.length := hTsub _ hmemT
    rw [getD_range_map _ _ _ _ hplt, if_pos hmemT]
  -- positions of the mid tier
  · intro j h1 h2
    have hjr : j < ranked.length := by omega
    have hMj : j - tc < ((ranked.drop tc).take (me - tc)).length := by
      rw [hMlen]
      omega
    have hmemM : ranked.getD j 0 ∈ (ranked.drop tc).take (me - tc) := by
      have hgoal : ((ranked.drop tc).take (me - tc))[j - tc] = ranked.getD j 0 := by
        rw [List.getD_eq_getElem _ _ hjr, List.getElem_take (ranked.drop tc),
          List.getElem_drop ranked]
        congr 1
        omega
      rw [← hgoal]
      exact List.getElem_mem hMj
    have hnotT : ranked.getD j 0 ∉ ranked.take tc :=
      fun hT => hdisj hT hmemM
    have hplt : ranked.getD j 0 < importance.length := hMsub _ hmemM
    rw [getD_range_map _ _ _ _ hplt, if_neg hnotT, if_pos hmemM]
  -- positions of the low tier
  · intro j h1 h2
    have hnotTM : ranked.getD j 0 ∉ ranked.take me := by
      intro hmem
      obtain ⟨i, hi, hival⟩ := List.getElem_of_mem hmem
      have hilen : i < ranked.length := by
        have := hi
        rw [List.length_take] at this
        omega
      have hival2 : ranked[i] = ranked.getD j 0 := by
        rw [← hival, List.getElem_take ranked]
      rw [List.getD_eq_getElem _ _ h2] at hival2
      have hij : i = j := (List.Nodup.getElem_inj_iff hrnd).mp hival2
      have : i < me := by
        have := hi
        rw [List.length_take] at this
        omega
      omega
    have hnotT : ranked.getD j 0 ∉ ranked.take tc := by
      intro hT
      exact hnotTM (by rw [← hTM]; exact List.mem_append_left _ hT)
    have hnotM : ranked.getD j 0 ∉ (ranked.drop tc).take (me - tc) := by
      intro hM
      exact hnotTM (by rw [← hTM]; exact List.mem_append_right _ hM)
    have hplt : ranked.getD j 0 < importance.length :=
      hrmem _ (by rw [List.getD_eq_getElem _ _ h2]; exact List.getElem_mem h2)
    rw [getD_range_map _ _ _ _ hplt, if_neg hnotT, if_neg hnotM]
  -- the high tier dominates everything below it
  · have hsplit := List.take_append_drop tc ranked
    have hp2 : (ranked.take tc ++ ranked.drop tc).Pairwise
        (fun a b => |importance.getD b 0| ≤ |importance.getD a 0|) := by
      rw [hsplit]
      exact hpair
    exact fun a ha b hb => (List.pairwise_append.mp hp2).2.2 a ha b hb

theorem c5_adaptive_precision_witness :
    ([24, 8, 16, 8, 16] : List ℤ).count 24 = 1 ∧
    ([24, 8, 16, 8, 16] : List ℤ).count 16 = 3 - 1 ∧
    ([24, 8, 16, 8, 16] : List ℤ).count 8 = 5 - 3 :=
  let H := c5_adaptive_precision [9/10, 1/10, 1/2, 1/20, 7/10] [0, 4, 2, 1, 3]
    (1/5) 24 16 8 [24, 8, 16, 8, 16] 1 3
    (by exact ⟨by decide, pairwiseB⟩)
    (by norm_num)
    (by simp)
    (by decide)
    (by norm_num)
    (by
      have hc : (⌈(3 / 2 : ℚ)⌉ : ℤ) = 2 := by
        rw [Int.ceil_eq_iff] <;> norm_num
      norm_num [hc]
      rfl)
    adaptive_scenarioB
  ⟨H.2.2.1, H.2.2.2.1, H.2.2.2.2.1⟩
